import Mathlib

/-!
Verification development for `dotsctl.py` (hamishcoleman/dots_base).

The script manages "dots" files: it scans source files for an embedded
`:dotsctl:` metadata block, and reconciles the filesystem (directories and
symlinks) with that metadata.

We shallowly embed the relevant parts of the script:
* paths are `List Char` and the `os.path` helpers used by the script
  (`dirname`, `basename`, `join`, `expanduser`, `splitext`, `normpath`,
  `abspath`, `relpath`) are modelled character-for-character after CPython's
  `posixpath` implementations;
* the filesystem is an association list from paths to entries, with
  `lstat`-style lookup (no symlink following is needed by the modelled code
  paths: the script only uses `os.lstat`, `os.path.isdir`/`exists` on
  directory paths, `os.readlink`, `os.unlink`, `os.symlink`, `os.makedirs`);
* fallible code returns `Except (String × FS)`: the error carries the message
  of the raised Python exception together with the filesystem state at the
  point of the raise (an uncaught exception leaves earlier mutations in
  place);
* `print`/`log` output is collected in lists: `logs` are the "changed"
  log events emitted through `log()` (`MKDIR`/`SYMLINK`), `warns` are the
  inline warnings printed with `print(...)`.  The global `log_verbose` flag
  only gates echoing of the events and is not modelled.
-/

namespace Dotsctl

abbrev Path := List Char

/-- Strip trailing `'/'` characters (Python `str.rstrip('/')`). -/
def rstripSlash : Path → Path
  | [] => []
  | c :: rest =>
    let r := rstripSlash rest
    if r = [] ∧ c = '/' then [] else c :: r

/-- Strip trailing whitespace (Python `str.rstrip()`), used on block lines. -/
def rstripWs : Path → Path
  | [] => []
  | c :: rest =>
    let r := rstripWs rest
    if r = [] ∧ c.isWhitespace then [] else c :: r

/-- Model of `posixpath.split`: split `p` at its final `'/'` into
`(head, tail)`, where `head` keeps the trailing slash. -/
def splitLast : Path → Path × Path
  | [] => ([], [])
  | c :: rest =>
    if rest.contains '/' then
      (c :: (splitLast rest).1, (splitLast rest).2)
    else if c = '/' then (['/'], rest)
    else ([], c :: rest)

/-- Model of `os.path.dirname` (posixpath): the head of `posixpath.split`,
right-stripped of slashes unless it consists only of slashes. -/
def dirname (p : Path) : Path :=
  let head := (splitLast p).1
  if head = [] then []
  else if head.all (· = '/') then head
  else rstripSlash head

/-- Model of `os.path.basename` (posixpath): the tail of `posixpath.split`. -/
def basename (p : Path) : Path := (splitLast p).2

/-- Model of `os.path.join a b` for the two-argument form used by the script
(posixpath: an absolute second component replaces the first). -/
def pjoin (a b : Path) : Path :=
  if b.head? = some '/' then b
  else if a = [] ∨ a.getLast? = some '/' then a ++ b
  else a ++ '/' :: b

/-- Model of `os.path.expanduser` with home directory `home`.  Only the
`~`/`~/...` forms are expanded; a `~user` form whose user is unknown is
returned unchanged (we model a system where no other user exists). -/
def expanduser (home : Path) (p : Path) : Path :=
  if p.head? = some '~' then
    if p.tail = [] ∨ p.tail.head? = some '/' then
      let r := rstripSlash home ++ p.tail
      if r = [] then ['/'] else r
    else p
  else p

/-- Position of the last occurrence of `c`, as the length of the prefix in
front of it (`none` when absent). -/
def lastIdx (c : Char) : Path → Option Nat
  | [] => none
  | x :: rest =>
    match lastIdx c rest with
    | some i => some (i + 1)
    | none => if x = c then some 0 else none

/-- Model of `os.path.splitext` (posixpath `_splitext`): split off the
extension at the last dot of the final component, unless every character of
the final component before that dot is itself a dot. -/
def splitext (p : Path) : Path × Path :=
  let base := basename p
  match lastIdx '.' base with
  | none => (p, [])
  | some i =>
    if (base.take i).any (· ≠ '.') then
      let cut := p.length - base.length + i
      (p.take cut, p.drop cut)
    else (p, [])

/-- Model of `posixpath.normpath`'s component loop. -/
def normComps (initSlashes : Bool) : List Path → List Path → List Path
  | [], acc => acc.reverse
  | comp :: rest, acc =>
    if comp = [] ∨ comp = ['.'] then normComps initSlashes rest acc
    else if comp ≠ "..".toList ∨ (¬ initSlashes ∧ acc = []) ∨
            acc.head? = some "..".toList then
      normComps initSlashes rest (comp :: acc)
    else
      match acc with
      | [] => normComps initSlashes rest []
      | _ :: acc' => normComps initSlashes rest acc'

/-- Join components with single slashes (Python `'/'.join`). -/
def joinComps : List Path → Path
  | [] => []
  | [c] => c
  | c :: rest => c ++ '/' :: joinComps rest

/-- Model of `os.path.normpath` (posixpath). -/
def normpath (p : Path) : Path :=
  if p = [] then ['.']
  else
    let one := p.head? = some '/'
    let two := one ∧ (p.drop 1).head? = some '/' ∧ ¬ ((p.drop 2).head? = some '/')
    let comps := p.splitOn '/'
    let newComps := normComps one comps []
    let slashes : Path := if two then ['/', '/'] else if one then ['/'] else []
    let r := slashes ++ joinComps newComps
    if r = [] then ['.'] else r

/-- Model of `os.path.abspath` with current working directory `cwd`. -/
def abspath (cwd p : Path) : Path :=
  if p.head? = some '/' then normpath p else normpath (pjoin cwd p)

/-- Model of `os.path.relpath path start` (posixpath) with working
directory `cwd`. -/
def relpath (cwd p start : Path) : Path :=
  let startList := ((abspath cwd start).splitOn '/').filter (· ≠ [])
  let pList := ((abspath cwd p).splitOn '/').filter (· ≠ [])
  let i := (List.zip startList pList).takeWhile (fun z => z.1 = z.2) |>.length
  let rel := List.replicate (startList.length - i) "..".toList ++ pList.drop i
  match rel with
  | [] => ['.']
  | _ => joinComps rel

example : dirname "a/b".toList = "a".toList := by decide
example : dirname "/a".toList = "/".toList := by decide
example : dirname "//a".toList = "//".toList := by decide
example : dirname "a".toList = "".toList := by decide
example : dirname "a/b/".toList = "a/b".toList := by decide
example : basename "a/b".toList = "b".toList := by decide
example : basename "a/".toList = "".toList := by decide
example : pjoin "a".toList "b".toList = "a/b".toList := by decide
example : pjoin "a/".toList "b".toList = "a/b".toList := by decide
example : pjoin "a".toList "/b".toList = "/b".toList := by decide
example : expanduser "/home/u".toList "~/x".toList = "/home/u/x".toList := by decide
example : expanduser "/home/u".toList "~".toList = "/home/u".toList := by decide
example : expanduser "/home/u".toList "~user/x".toList = "~user/x".toList := by decide
example : expanduser "/home/u".toList "a/~/x".toList = "a/~/x".toList := by decide
example : splitext "a/b.py".toList = ("a/b".toList, ".py".toList) := by decide
example : splitext "a/.bashrc".toList = ("a/.bashrc".toList, "".toList) := by decide
example : splitext "a.tar.gz".toList = ("a.tar".toList, ".gz".toList) := by decide
example : splitext "~.py".toList = ("~".toList, ".py".toList) := by decide
example : normpath "/a//b/./c/..".toList = "/a/b".toList := by decide
example : normpath "a/../../b".toList = "../b".toList := by decide
example : normpath "//a/b".toList = "//a/b".toList := by decide
example : abspath "/cwd".toList "foo.py".toList = "/cwd/foo.py".toList := by decide
example : relpath "/cwd".toList "/cwd/foo.py".toList "/bin".toList = "../cwd/foo.py".toList := by
  decide
example : relpath "/cwd".toList "/a/b".toList "/a".toList = "b".toList := by decide
example : relpath "/cwd".toList "/a".toList "/a".toList = ".".toList := by decide

/-- A filesystem entry as distinguished by `install_symlink_one`'s `lstat`
checks: a directory, a regular file (with content), a symbolic link (storing
its target string), or any other entry type (device, fifo, socket). -/
inductive Entry where
  | dir : Entry
  | file : Path → Entry
  | symlink : Path → Entry
  | special : Entry
deriving DecidableEq, Repr

/-- The filesystem: an association list from paths to entries (first match
wins; `fsSet` keeps keys unique). -/
abbrev FS := List (Path × Entry)

/-- `os.lstat`-style lookup: the entry stored at `p`, not following links. -/
def fsGet (st : FS) (p : Path) : Option Entry :=
  (st.find? (fun e => e.1 = p)).map (·.2)

/-- Store entry `e` at `p`, replacing any previous entry. -/
def fsSet (st : FS) (p : Path) (e : Entry) : FS :=
  (p, e) :: st.filter (fun x => x.1 ≠ p)

/-- `os.unlink`: remove the entry at `p`. -/
def fsRemove (st : FS) (p : Path) : FS :=
  st.filter (fun x => x.1 ≠ p)

/-- `os.path.isdir` for the script's uses (the queried paths hold at most a
directory in the modelled runs, so no link following is needed). -/
def isdir (st : FS) (p : Path) : Bool :=
  fsGet st p = some .dir

/-- `os.path.exists` for the script's uses. -/
def fsExists (st : FS) (p : Path) : Bool :=
  (fsGet st p).isSome

/-- The `:dotsctl:` dirname chain of strictly shortening ancestors of `p`
(nearest first), used to model `os.makedirs` creating missing parents. -/
def dirChain : Nat → Path → List Path
  | 0, _ => []
  | n + 1, p =>
    let d := dirname p
    if d = p ∨ d = [] then [] else d :: dirChain n d

/-- Model of `os.makedirs p exist_ok=True` in the non-error cases the script
reaches (the script only calls it when `p` is absent): create every absent
ancestor of `p` as a directory, root-most first, then `p` itself. -/
def makedirs (st : FS) (p : Path) : FS :=
  let anc := (dirChain p.length p).reverse
  let st := anc.foldl (fun s q => if fsExists s q then s else fsSet s q .dir) st
  fsSet st p .dir

/-- `ActionBase` subclasses of `dotsctl.py`: the inert action records. -/
inductive Action where
  | source : Path → Action
  | package : Path → Action
  | mkdir : Path → Action
  | symlink : (target : Path) → (link : Path) → Action
deriving DecidableEq, Repr

/-- The observable outcome of a successful call into the install layer:
the filesystem, the accumulated `actions` list, the "changed" `log()` events
(`MKDIR`/`SYMLINK` lines), and the warnings printed with `print`. -/
structure FsOut where
  fs : FS
  actions : List Action
  logs : List Path
  warns : List Path
deriving DecidableEq, Repr

/-- A fallible install-layer call; a raised exception carries its message and
the filesystem at the point of the raise. -/
abbrev FsRes := Except (String × FS) FsOut

/-- Sequence two install-layer results: `a`'s output followed by `r`. -/
def seqOut (a : FsOut) (r : FsRes) : FsRes :=
  match r with
  | .error e => .error e
  | .ok b => .ok ⟨b.fs, a.actions ++ b.actions, a.logs ++ b.logs, a.warns ++ b.warns⟩

/-- The `mkdir` metadata value: a string or a (recursively nested) list. -/
inductive MVal where
  | str : Path → MVal
  | list : List MVal → MVal

mutual

/-- `install_mkdir` of `dotsctl.py` (lines 154-177): create one or more
directories.  A list recurses; a string is `~`-expanded, the `ActionMkdir`
is recorded, and the directory is created unless it already exists (an
existing non-directory raises `ValueError`). -/
def install_mkdir (home : Path) : MVal → FS → FsRes
  | .list l, st => install_mkdir_list home l st
  | .str s, st =>
    let path := expanduser home s
    let actions := [Action.mkdir path]
    if isdir st path then .ok ⟨st, actions, [], []⟩
    else if fsExists st path then .error ("Path exists and is not a dir", st)
    else .ok ⟨makedirs st path, actions, ["MKDIR ".toList ++ path], []⟩

/-- The `for i in mkdir: actions += install_mkdir(i)` loop of
`install_mkdir` on a list value. -/
def install_mkdir_list (home : Path) : List MVal → FS → FsRes
  | [], st => .ok ⟨st, [], [], []⟩
  | i :: rest, st =>
    match install_mkdir home i st with
    | .error e => .error e
    | .ok a => seqOut a (install_mkdir_list home rest a.fs)

end

/-- `install_symlink_one` of `dotsctl.py` (lines 180-211): ensure the parent
directory, record the `ActionSymlink`, then reconcile against the `lstat` of
`linkpath`: absent → create; regular file → warn and leave; symlink with the
desired target → silent no-op; symlink with a different target → replace;
anything else → raise `NotImplementedError`. -/
def install_symlink_one (home target linkpath : Path) (st : FS) : FsRes :=
  match install_mkdir home (.str (dirname linkpath)) st with
  | .error e => .error e
  | .ok a =>
    let actions := a.actions ++ [Action.symlink target linkpath]
    match fsGet a.fs linkpath with
    | some (.file _) =>
      .ok ⟨a.fs, actions, a.logs,
           a.warns ++ ["Error: will not overwrite regular file ".toList ++ linkpath]⟩
    | some (.symlink orig) =>
      if orig = target then .ok ⟨a.fs, actions, a.logs, a.warns⟩
      else
        .ok ⟨fsSet (fsRemove a.fs linkpath) linkpath (.symlink target), actions,
             a.logs ++ ["SYMLINK ".toList ++ linkpath], a.warns⟩
    | some .dir => .error ("Unknown existing file type", a.fs)
    | some .special => .error ("Unknown existing file type", a.fs)
    | none =>
      .ok ⟨fsSet a.fs linkpath (.symlink target), actions,
           a.logs ++ ["SYMLINK ".toList ++ linkpath], a.warns⟩

/-- `install_symlink` of `dotsctl.py` (lines 214-220): one symlink per
`linkpath → target` pair, with `~` expanded in the link path. -/
def install_symlink (home : Path) : List (Path × Path) → FS → FsRes
  | [], st => .ok ⟨st, [], [], []⟩
  | pr :: rest, st =>
    match install_symlink_one home pr.2 (expanduser home pr.1) st with
    | .error e => .error e
    | .ok a => seqOut a (install_symlink home rest a.fs)

example :
    install_mkdir "/h".toList (.str "/a/b".toList) [] =
      .ok ⟨[("/a/b".toList, .dir), ("/a".toList, .dir), ("/".toList, .dir)],
           [.mkdir "/a/b".toList], ["MKDIR /a/b".toList], []⟩ := by rfl
example :
    install_mkdir "/h".toList (.str "/a".toList) [("/a".toList, .dir)] =
      .ok ⟨[("/a".toList, .dir)], [.mkdir "/a".toList], [], []⟩ := by rfl
example :
    install_symlink_one "/h".toList "t".toList "/d/l".toList [("/d".toList, .dir)] =
      .ok ⟨[("/d/l".toList, .symlink "t".toList), ("/d".toList, .dir)],
           [.mkdir "/d".toList, .symlink "t".toList "/d/l".toList],
           ["SYMLINK /d/l".toList], []⟩ := by rfl
example :
    install_symlink_one "/h".toList "t".toList "/d/l".toList
      [("/d".toList, .dir), ("/d/l".toList, .symlink "t".toList)] =
      .ok ⟨[("/d".toList, .dir), ("/d/l".toList, .symlink "t".toList)],
           [.mkdir "/d".toList, .symlink "t".toList "/d/l".toList], [], []⟩ := by rfl

/-- A metadata value that may be a single string or a list of strings
(`dest` and `destdir` accept both shapes). -/
inductive SL where
  | str : Path → SL
  | list : List Path → SL
deriving DecidableEq, Repr

/-- Normalize an `SL` to the list the script's
`if isinstance(..., str): ... = [...]` step produces. -/
def SL.toListP : SL → List Path
  | .str s => [s]
  | .list l => l

/-- A parsed metadata mapping, restricted to the keys `install_one` consults:
`mkdir`, `symlink` (ordered `linkpath → target` pairs), `destdir`, `dest`,
`strip_extension`, and `dotsctl` (ordered `name → nested metadata` pairs).
Other keys (`dpkg`, ...) are ignored by `install_one` and not modelled. -/
inductive Metadata where
  | mk : Option MVal → Option (List (Path × Path)) → Option SL → Option SL →
         Option Bool → Option (List (Path × Metadata)) → Metadata

/-- The `mkdir` key. -/
def Metadata.mkdirK : Metadata → Option MVal
  | .mk v _ _ _ _ _ => v

/-- The `symlink` key. -/
def Metadata.symlinkK : Metadata → Option (List (Path × Path))
  | .mk _ v _ _ _ _ => v

/-- The `destdir` key. -/
def Metadata.destdirK : Metadata → Option SL
  | .mk _ _ v _ _ _ => v

/-- The `dest` key. -/
def Metadata.destK : Metadata → Option SL
  | .mk _ _ _ v _ _ => v

/-- The `strip_extension` key. -/
def Metadata.stripK : Metadata → Option Bool
  | .mk _ _ _ _ v _ => v

/-- The `dotsctl` key. -/
def Metadata.dotsctlK : Metadata → Option (List (Path × Metadata))
  | .mk _ _ _ _ _ v => v

/-- Python string `<` (lexicographic on code points), used by `sorted()`. -/
def pathLt : Path → Path → Bool
  | [], [] => false
  | [], _ :: _ => true
  | _ :: _, [] => false
  | a :: as, b :: bs => if a = b then pathLt as bs else a < b

/-- Stable insertion for `sortByKey`. -/
def insertByKey (x : Path × Metadata) : List (Path × Metadata) → List (Path × Metadata)
  | [] => [x]
  | y :: ys => if pathLt y.1 x.1 then y :: insertByKey x ys else x :: y :: ys

/-- `sorted(metadata["dotsctl"].items())`: stable sort by key. -/
def sortByKey : List (Path × Metadata) → List (Path × Metadata)
  | [] => []
  | x :: xs => insertByKey x (sortByKey xs)

theorem sizeOf_insertByKey (x : Path × Metadata) (l : List (Path × Metadata)) :
    sizeOf (insertByKey x l) = 1 + sizeOf x + sizeOf l := by
  induction l with
  | nil => simp [insertByKey]
  | cons y ys ih =>
    simp only [insertByKey]
    split
    all_goals simp only [List.cons.sizeOf_spec, ih]
    all_goals omega

theorem sizeOf_sortByKey (l : List (Path × Metadata)) :
    sizeOf (sortByKey l) = sizeOf l := by
  induction l with
  | nil => rfl
  | cons x xs ih =>
    simp only [sortByKey, sizeOf_insertByKey, ih, List.cons.sizeOf_spec]

/-- Concatenate two install-layer outputs (`b` ran after `a`). -/
def FsOut.app (a b : FsOut) : FsOut :=
  ⟨b.fs, a.actions ++ b.actions, a.logs ++ b.logs, a.warns ++ b.warns⟩

/-- Re-associate the updated nested metadata blocks produced by the sorted
`dotsctl` iteration with the original (insertion-ordered) key list: in
Python, each `this_meta` is mutated in place inside the parent's dict. -/
def remapDots (orig upd : List (Path × Metadata)) : List (Path × Metadata) :=
  orig.map (fun kv =>
    match upd.find? (fun u => u.1 = kv.1) with
    | some u => u
    | none => kv)

/-- The destination-path computation of `install_one`'s `dest` loop (lines
267-281): expand `~`, split the extension of the (destination) path, and
strip it when the explicit `strip_extension` value — defaulting to
`ext in [".py"]` — says so. -/
def dest_path (home : Path) (se : Option Bool) (d : Path) : Path :=
  let dest := expanduser home d
  let re := splitext dest
  let strip : Bool := se.getD (re.2 = ".py".toList)
  if strip then re.1 else dest

/-- The `for dest in metadata["dest"]` loop of `install_one` (lines 266-291):
compute the destination via `dest_path` and install a symlink whose target
is the source path made absolute and then expressed relative to the
destination's parent directory. -/
def install_dest (home cwd filename : Path) (se : Option Bool) :
    List Path → FS → FsRes
  | [], st => .ok ⟨st, [], [], []⟩
  | d :: rest, st =>
    let dest := dest_path home se d
    let destdir := dirname dest
    let src_abs := abspath cwd filename
    let src_rel := relpath cwd src_abs destdir
    match install_symlink_one home src_rel dest st with
    | .error e => .error e
    | .ok o => seqOut o (install_dest home cwd filename se rest o.fs)

/-- The `mkdir` and `symlink` steps of `install_one` (lines 231-236). -/
def step_pre (home : Path) (mkv : Option MVal) (sy : Option (List (Path × Path)))
    (st : FS) : FsRes :=
  match (match mkv with
         | none => (.ok ⟨st, [], [], []⟩ : FsRes)
         | some v => install_mkdir home v st) with
  | .error e => .error e
  | .ok o1 =>
    match sy with
    | none => .ok o1
    | some prs => seqOut o1 (install_symlink home prs o1.fs)

/-- The `destdir` step of `install_one` (lines 238-251), as the pure
computation of the new `destdir` and `dest` values: `destdir` is normalized
to a list in place, and `metadata["dest"]` is overwritten with the
synthesized `destdir + basename(filename)` paths. -/
def step_destdir (filename : Path) (dd de : Option SL) : Option SL × Option SL :=
  match dd with
  | none => (dd, de)
  | some sl =>
    (some (.list sl.toListP),
     some (.list (sl.toListP.map (fun d => pjoin d (basename filename)))))

mutual

/-- `install_one` of `dotsctl.py` (lines 223-293): process the keys of one
metadata block in the fixed order `mkdir`, `symlink`, `destdir` (which
normalizes `destdir` to a list and overwrites `metadata["dest"]` with the
synthesized destinations), `dotsctl` (sorted, depth-first recursion), `dest`
(normalized to a list, then symlinked via `install_dest`).  The returned
`Metadata` is the argument as the call leaves it — Python mutates the dict
in place, so the write-backs are observable by the caller. -/
def install_one (home cwd filename : Path) (m : Metadata) (st : FS) :
    Except (String × FS) (FsOut × Metadata) :=
  match m with
  | .mk mkv sy dd de se dc =>
    match step_pre home mkv sy st with
    | .error e => .error e
    | .ok o2 =>
      match step_dots home cwd (dirname filename) dc o2.fs with
      | .error e => .error e
      | .ok (o3', dc') =>
        let o3 := FsOut.app o2 o3'
        let dd2 := (step_destdir filename dd de).1
        match (step_destdir filename dd de).2 with
        | none => .ok (o3, .mk mkv sy dd2 none se dc')
        | some sl =>
          match install_dest home cwd filename se sl.toListP o3.fs with
          | .error e => .error e
          | .ok o4' =>
            .ok (FsOut.app o3 o4', .mk mkv sy dd2 (some (.list sl.toListP)) se dc')
termination_by sizeOf m
decreasing_by
  all_goals simp_wf

/-- The `dotsctl` step of `install_one` (lines 253-260): sort the nested
blocks by name, recurse into each, and write the children back (in Python
the nested dicts are mutated in place inside the parent). -/
def step_dots (home cwd basedir : Path) (dc : Option (List (Path × Metadata)))
    (st : FS) : Except (String × FS) (FsOut × Option (List (Path × Metadata))) :=
  match dc with
  | none => .ok (⟨st, [], [], []⟩, none)
  | some l =>
    match install_dots home cwd basedir (sortByKey l) st with
    | .error e => .error e
    | .ok r => .ok (r.1, some (remapDots l r.2))
termination_by sizeOf dc
decreasing_by
  all_goals simp_wf
  all_goals simp only [sizeOf_sortByKey]
  all_goals omega

/-- The `for this_name, this_meta in sorted(metadata["dotsctl"].items())`
loop of `install_one` (lines 253-260): recursively plan each nested block as
the file `os.path.join(dirname(filename), this_name)`. -/
def install_dots (home cwd basedir : Path) :
    List (Path × Metadata) → FS → Except (String × FS) (FsOut × List (Path × Metadata))
  | [], st => .ok (⟨st, [], [], []⟩, [])
  | (name, cm) :: rest, st =>
    match install_one home cwd (pjoin basedir name) cm st with
    | .error e => .error e
    | .ok (o, cm') =>
      match install_dots home cwd basedir rest o.fs with
      | .error e => .error e
      | .ok (o2, rest') => .ok (FsOut.app o o2, (name, cm') :: rest')
termination_by l _ => sizeOf l
decreasing_by
  all_goals simp_wf
  all_goals omega

end

/-- The empty metadata block. -/
def Metadata.empty : Metadata := .mk none none none none none none

example :
    (install_one "/h".toList "/cwd".toList "x".toList
        (.mk none none (some (.str "/a".toList)) none none none) []).map
      (fun r => (r.1.actions, r.2.destK)) =
      .ok ([.mkdir "/a".toList,
            .symlink "../cwd/x".toList "/a/x".toList],
           some (.list ["/a/x".toList])) := by
  simp only [install_one, step_dots.eq_def, install_dots]
  rfl

/-- A text file for the scanner: the list of its lines (without trailing
newlines; `readline` past end-of-file keeps returning the empty string). -/
abbrev FileLines := List Path

/-- Model of `fh.readline()` (with the trailing newline already stripped:
the scanner only uses lines via `rstrip` or substring search, for which the
newline is irrelevant). -/
def readline : FileLines → Path × FileLines
  | [] => ([], [])
  | l :: ls => (l, ls)

/-- First index at which `pat` occurs as a contiguous substring
(Python `str.index`, as `none` instead of raising `ValueError`). -/
def findSub (pat : Path) : Path → Option Nat
  | [] => if pat = [] then some 0 else none
  | c :: rest =>
    if pat.isPrefixOf (c :: rest) then some 0
    else (findSub pat rest).map (· + 1)

/-- The header-search loop of `_source_load` (lines 74-89): read up to
`check_lines` lines looking for the `:dotsctl:` marker; on a hit return its
column (`indent`) and the remaining file. -/
def findHeader : Nat → FileLines → Option (Nat × FileLines)
  | 0, _ => none
  | n + 1, fs =>
    let r := readline fs
    match findSub ":dotsctl:".toList r.1 with
    | some i => some (i, r.2)
    | none => findHeader n r.2

/-- The metadata-block loop of `_source_load` (lines 95-101), with explicit
fuel: each iteration reads a line, drops `indent` leading characters, strips
trailing whitespace and appends it; it stops only on a line equal to `...`.
The Python loop is `while True:` — `none` here means the loop has not
terminated within `fuel` iterations. -/
def readBlock : Nat → Nat → FileLines → List Path → Option (List Path × FileLines)
  | 0, _, _, _ => none
  | n + 1, indent, fs, acc =>
    let r := readline fs
    let line := rstripWs (r.1.drop indent)
    let acc' := acc ++ [line]
    if line = "...".toList then some (acc', r.2)
    else readBlock n indent r.2 acc'

/-- `_source_load` of `dotsctl.py` (lines 66-103), up to the final
`yaml.safe_load`: `none` is Python `None` (no metadata found); `some lines`
are the raw block lines handed to the YAML parser.  The caller supplies the
block loop's fuel; the Python loop is unbounded. -/
def source_load (fuel : Nat) (file : FileLines) : Option (Option (List Path)) :=
  match findHeader 30 file with
  | none => some none
  | some (indent, rest) =>
    match readBlock fuel indent rest [] with
    | none => none
    | some (lines, _) => some (some lines)

example :
    source_load 9 ["# :dotsctl:".toList, "#   dest: ~/bin/x".toList, "# ...".toList,
      "code".toList] = some (some ["  dest: ~/bin/x".toList, "...".toList]) := by decide
example :
    source_load 9 ["plain".toList, "code".toList] = some none := by decide

/-- The `sources` dict of `sources_foreach` (lines 310-313) built from
explicit `args.pathname` entries: dict insertion de-duplicates identical
path strings while keeping first-occurrence order. -/
def buildSources (pathname : List Path) : List Path :=
  pathname.foldl (fun acc n => if acc.contains n then acc else acc ++ [n]) []

/-- The expansion order of the `for source in sources` loop (lines 317-326):
a file root is scanned directly; any other root is globbed recursively and
every regular file in it is scanned.  `isFile` models `os.path.isfile` and
`globF` models `glob.glob(f"{source}/**", recursive=True)`. -/
def expandFiles (isFile : Path → Bool) (globF : Path → List Path)
    (sources : List Path) : List Path :=
  sources.flatMap (fun s => if isFile s then [s] else (globF s).filter isFile)

/-- `source_append` of `sources_foreach` (lines 301-308): raise on a
filename already present in `data`, drop files without metadata, otherwise
record `filename → metadata`.  `loadMeta` models `_source_load` composed
with the YAML parser. -/
def source_append (loadMeta : Path → Option Metadata)
    (data : List (Path × Metadata)) (filename : Path) :
    Except String (List (Path × Metadata)) :=
  if data.any (fun e => e.1 = filename) then .error "Multiple sources load same"
  else
    match loadMeta filename with
    | none => .ok data
    | some md => .ok (data ++ [(filename, md)])

/-- The scanning phase of `sources_foreach`: `source_append` over every
expanded file, in expansion order. -/
def scanAll (loadMeta : Path → Option Metadata) :
    List Path → List (Path × Metadata) → Except String (List (Path × Metadata))
  | [], data => .ok data
  | f :: rest, data =>
    match source_append loadMeta data f with
    | .error e => .error e
    | .ok data' => scanAll loadMeta rest data'

/-- Stable insertion for `sortKeys`. -/
def insertKey (x : Path × Metadata) : List (Path × Metadata) → List (Path × Metadata)
  | [] => [x]
  | y :: ys => if pathLt y.1 x.1 then y :: insertKey x ys else x :: y :: ys

/-- `for source in sorted(data)` (line 329): iterate the scanned mapping in
sorted key order. -/
def sortKeys : List (Path × Metadata) → List (Path × Metadata)
  | [] => []
  | x :: xs => insertKey x (sortKeys xs)

/-- The result phase of `sources_foreach` (lines 328-334): per source, append
the `ActionSource` marker, call `func` once, and — when that first call
returns non-`None` — call `func` a second time and append only the second
call's result (`f` from the first call is used for the `None` test only).
`func` is the per-file callback (`install_one`, `debug_meta`, ...) modelled
as a state transformer returning `Option (List Action)`; a `None` from the
second call would make Python's `result += None` raise `TypeError`. -/
def runFuncs {σ : Type} (func : Path → Metadata → σ → σ × Option (List Action)) :
    List (Path × Metadata) → σ → Except String (σ × List Action)
  | [], st => .ok (st, [])
  | (s, md) :: rest, st =>
    let r1 := func s md st
    match r1.2 with
    | none =>
      match runFuncs func rest r1.1 with
      | .error e => .error e
      | .ok (st', acts) => .ok (st', Action.source s :: acts)
    | some _ =>
      let r2 := func s md r1.1
      match r2.2 with
      | none => .error "TypeError"
      | some acts2 =>
        match runFuncs func rest r2.1 with
        | .error e => .error e
        | .ok (st', acts) => .ok (st', Action.source s :: (acts2 ++ acts))

/-- `sources_foreach` of `dotsctl.py` (lines 296-334) for an explicit
`args.pathname` list: build the `sources` dict, expand and scan every file
(building `data`), then run `func` over `sorted(data)` collecting the
result list. -/
def sources_foreach {σ : Type} (isFile : Path → Bool) (globF : Path → List Path)
    (loadMeta : Path → Option Metadata) (pathname : List Path)
    (func : Path → Metadata → σ → σ × Option (List Action)) (st : σ) :
    Except String (σ × List Action) :=
  match scanAll loadMeta (expandFiles isFile globF (buildSources pathname)) [] with
  | .error e => .error e
  | .ok data => runFuncs func (sortKeys data) st

/-- A planned reconciliation action, at the granularity the reconciler
executes (`install_mkdir` on one path / `install_symlink_one`). -/
inductive Op where
  | mkdir : Path → Op
  | symlink : (target : Path) → (link : Path) → Op
deriving DecidableEq, Repr

/-- Execute one planned action through the script's reconciler primitives. -/
def runOp (home : Path) (o : Op) (st : FS) : FsRes :=
  match o with
  | .mkdir raw => install_mkdir home (.str raw) st
  | .symlink t l => install_symlink_one home t l st

/-- Execute a list of planned actions in order: an `install` run over its
plan, accumulating actions, change logs and warnings. -/
def runOps (home : Path) : List Op → FS → FsRes
  | [], st => .ok ⟨st, [], [], []⟩
  | o :: rest, st =>
    match runOp home o st with
    | .error e => .error e
    | .ok a => seqOut a (runOps home rest a.fs)

/-- The states in which a planned action is already satisfied: re-running it
changes nothing and logs nothing. -/
def stateOK (home : Path) (o : Op) (st : FS) : Prop :=
  match o with
  | .mkdir raw => fsGet st (expanduser home raw) = some .dir
  | .symlink t l =>
    fsGet st (expanduser home (dirname l)) = some .dir ∧
    (fsGet st l = some (.symlink t) ∨ ∃ c, fsGet st l = some (.file c))

/-- Two planned actions are compatible unless they demand different symlink
targets at the same link path. -/
def compatB : Op → Op → Bool
  | .symlink t l, .symlink t' l' => (l != l') || (t == t')
  | _, _ => true

/-- The states in which `install_mkdir` succeeds on a single path without
disturbing anything: the target is absent or already a directory. -/
def mkdirOk (st : FS) (p : Path) : Bool :=
  match fsGet st p with
  | some .dir => true
  | none => true
  | _ => false

/-- An instrumented per-file callback: its state counts how often it has
been invoked, and its returned action is tagged with the invocation
number. -/
def countingFunc : Path → Metadata → Nat → Nat × Option (List Action) :=
  fun _ _ n => (n + 1, some [Action.package (Nat.toDigits 10 n)])

/-- A file path that carries metadata occurs twice in an expansion list. -/
def hasDupLoaded (loadMeta : Path → Option Metadata) : List Path → Bool
  | [] => false
  | f :: r => ((loadMeta f).isSome && r.contains f) || hasDupLoaded loadMeta r

/-- The link-path shapes produced by the planner's `~`-expansion: either not
`~`-headed at all, or the bare `~`, or a `~user`-style head that
`expanduser` leaves alone. -/
def linkOK (l : Path) : Prop :=
  l.head? ≠ some '~' ∨ l = ['~'] ∨ ∃ c rest, l = '~' :: c :: rest ∧ c ≠ '/'

/-- The `Mkdir`-before-`Symlink` ordering invariant over an action list:
every `Symlink` is preceded by a `Mkdir` of the link's parent directory. -/
def covered (acts : List Action) : Prop :=
  ∀ (i : Nat) (t l : Path), acts[i]? = some (.symlink t l) →
    ∃ j, j < i ∧ acts[j]? = some (.mkdir (dirname l))

theorem fsGet_fsSet_self (st : FS) (p : Path) (e : Entry) :
    fsGet (fsSet st p e) p = some e := by
  simp [fsGet, fsSet, List.find?]

theorem find_filter_ne (st : FS) (p q : Path) (h : q ≠ p) :
    (st.filter (fun x => x.1 ≠ p)).find? (fun x => x.1 = q) =
      st.find? (fun x => x.1 = q) := by
  induction st with
  | nil => rfl
  | cons a st ih =>
    simp only [List.filter_cons, List.find?_cons]
    by_cases hp : a.1 = p
    · have h1 : decide (a.1 ≠ p) = false := by simp [hp]
      have h2 : decide (a.1 = q) = false := by
        simp only [decide_eq_false_iff_not]
        intro haq
        exact h (by rw [← haq, hp])
      rw [h1, h2]
      simpa using ih
    · have h1 : decide (a.1 ≠ p) = true := by simpa using hp
      rw [h1]
      simp only [if_true]
      rw [List.find?_cons]
      cases hq : decide (a.1 = q) with
      | false => exact ih
      | true => rfl

theorem fsGet_fsSet_ne (st : FS) (p q : Path) (e : Entry) (h : q ≠ p) :
    fsGet (fsSet st p e) q = fsGet st q := by
  unfold fsGet fsSet
  rw [List.find?_cons]
  have : (decide ((p, e).1 = q)) = false := by simp; exact fun hq => h hq.symm
  rw [this, find_filter_ne st p q h]

theorem fsGet_fsRemove_ne (st : FS) (p q : Path) (h : q ≠ p) :
    fsGet (fsRemove st p) q = fsGet st q := by
  unfold fsGet fsRemove
  rw [find_filter_ne st p q h]

theorem fsGet_foldl_create (anc : List Path) (st : FS) (q : Path) (e : Entry)
    (h : fsGet st q = some e) :
    fsGet (anc.foldl (fun s r => if fsExists s r then s else fsSet s r .dir) st) q =
      some e := by
  induction anc generalizing st with
  | nil => exact h
  | cons a anc ih =>
    simp only [List.foldl_cons]
    by_cases hex : fsExists st a = true
    · rw [if_pos hex]; exact ih st h
    · rw [if_neg hex]
      apply ih
      have hne : q ≠ a := by
        intro hqa
        apply hex
        unfold fsExists
        rw [hqa] at h
        rw [h]
        rfl
      rw [fsGet_fsSet_ne st a q .dir hne]
      exact h

theorem fsGet_makedirs_self (st : FS) (p : Path) :
    fsGet (makedirs st p) p = some .dir := by
  unfold makedirs
  exact fsGet_fsSet_self _ p .dir

theorem fsGet_makedirs_ne (st : FS) (p q : Path) (e : Entry) (hq : q ≠ p)
    (h : fsGet st q = some e) : fsGet (makedirs st p) q = some e := by
  unfold makedirs
  rw [fsGet_fsSet_ne _ p q .dir hq]
  exact fsGet_foldl_create _ st q e h

/-- On success, `install_mkdir` on a string records exactly the one
`ActionMkdir`, warns nothing, leaves the path a directory, and never
touches an existing entry. -/
theorem install_mkdir_str_ok (home s : Path) (st : FS) (a : FsOut)
    (h : install_mkdir home (.str s) st = .ok a) :
    a.actions = [.mkdir (expanduser home s)] ∧ a.warns = [] ∧
    fsGet a.fs (expanduser home s) = some .dir ∧
    (∀ q e, fsGet st q = some e → fsGet a.fs q = some e) := by
  unfold install_mkdir at h
  by_cases hd : isdir st (expanduser home s) = true
  · rw [if_pos hd] at h
    cases h
    refine ⟨rfl, rfl, ?_, fun q e hq => hq⟩
    unfold isdir at hd
    simpa using hd
  · rw [if_neg hd] at h
    by_cases hex : fsExists st (expanduser home s) = true
    · rw [if_pos hex] at h
      cases h
    · rw [if_neg hex] at h
      cases h
      refine ⟨rfl, rfl, fsGet_makedirs_self _ _, fun q e hq => ?_⟩
      apply fsGet_makedirs_ne _ _ _ _ _ hq
      intro hqp
      apply hex
      unfold fsExists
      rw [hqp] at hq
      rw [hq]
      rfl

/-- `install_mkdir` on a string whose target is already a directory is a
pure no-op: no state change, no log. -/
theorem install_mkdir_str_isdir (home s : Path) (st : FS)
    (hd : isdir st (expanduser home s) = true) :
    install_mkdir home (.str s) st = .ok ⟨st, [.mkdir (expanduser home s)], [], []⟩ := by
  unfold install_mkdir
  rw [if_pos hd]

/-- On success, `install_symlink_one` records exactly the parent `Mkdir`
followed by the `Symlink`. -/
theorem symlink_one_ok_actions (home t l : Path) (st : FS) (a : FsOut)
    (h : install_symlink_one home t l st = .ok a) :
    a.actions = [.mkdir (expanduser home (dirname l)), .symlink t l] := by
  unfold install_symlink_one at h
  cases hmk : install_mkdir home (.str (dirname l)) st with
  | error e => rw [hmk] at h; cases h
  | ok a1 =>
    rw [hmk] at h
    dsimp only at h
    obtain ⟨hact, -, -, -⟩ := install_mkdir_str_ok home (dirname l) st a1 hmk
    cases hget : fsGet a1.fs l with
    | none => rw [hget] at h; cases h; simp [hact]
    | some e =>
      rw [hget] at h
      cases e with
      | file c => cases h; simp [hact]
      | symlink orig =>
        dsimp only at h
        by_cases ht : orig = t
        · rw [if_pos ht] at h; cases h; simp [hact]
        · rw [if_neg ht] at h; cases h; simp [hact]
      | dir => cases h
      | special => cases h

/-- On success, `install_symlink_one` leaves the link's parent a directory,
leaves the link path holding either the desired symlink or the pre-existing
regular file, and touches no other existing entry. -/
theorem symlink_one_ok_fs (home t l : Path) (st : FS) (a : FsOut)
    (h : install_symlink_one home t l st = .ok a) :
    fsGet a.fs (expanduser home (dirname l)) = some .dir ∧
    (fsGet a.fs l = some (.symlink t) ∨ ∃ c, fsGet a.fs l = some (.file c)) ∧
    (∀ q e, q ≠ l → fsGet st q = some e → fsGet a.fs q = some e) := by
  unfold install_symlink_one at h
  cases hmk : install_mkdir home (.str (dirname l)) st with
  | error e => rw [hmk] at h; cases h
  | ok a1 =>
    rw [hmk] at h
    dsimp only at h
    obtain ⟨-, -, hdir, hpres⟩ := install_mkdir_str_ok home (dirname l) st a1 hmk
    cases hget : fsGet a1.fs l with
    | none =>
      rw [hget] at h; cases h
      have hne : expanduser home (dirname l) ≠ l := by
        intro he; rw [he] at hdir; rw [hdir] at hget; cases hget
      refine ⟨?_, .inl (fsGet_fsSet_self _ _ _), fun q e hq hqe => ?_⟩
      · rw [fsGet_fsSet_ne _ _ _ _ hne]; exact hdir
      · rw [fsGet_fsSet_ne _ _ _ _ hq]; exact hpres q e hqe
    | some e =>
      rw [hget] at h
      cases e with
      | file c =>
        cases h
        exact ⟨hdir, .inr ⟨c, hget⟩, fun q e hq hqe => hpres q e hqe⟩
      | symlink orig =>
        dsimp only at h
        by_cases ht : orig = t
        · rw [if_pos ht] at h; cases h
          exact ⟨hdir, .inl (ht ▸ hget), fun q e hq hqe => hpres q e hqe⟩
        · rw [if_neg ht] at h; cases h
          have hne : expanduser home (dirname l) ≠ l := by
            intro he; rw [he] at hdir; rw [hdir] at hget; cases hget
          refine ⟨?_, .inl (fsGet_fsSet_self _ _ _), fun q e hq hqe => ?_⟩
          · rw [fsGet_fsSet_ne _ _ _ _ hne, fsGet_fsRemove_ne _ _ _ hne]; exact hdir
          · rw [fsGet_fsSet_ne _ _ _ _ hq, fsGet_fsRemove_ne _ _ _ hq]
            exact hpres q e hqe
      | dir => cases h
      | special => cases h

/-- When the parent directory already exists and the link path already holds
the desired symlink or a regular file, `install_symlink_one` is a pure
no-op on the filesystem and emits no change log. -/
theorem symlink_one_noop (home t l : Path) (st : FS)
    (hd : isdir st (expanduser home (dirname l)) = true)
    (hl : fsGet st l = some (.symlink t) ∨ ∃ c, fsGet st l = some (.file c)) :
    ∃ w, install_symlink_one home t l st =
      .ok ⟨st, [.mkdir (expanduser home (dirname l)), .symlink t l], [], w⟩ := by
  unfold install_symlink_one
  rw [install_mkdir_str_isdir home (dirname l) st hd]
  dsimp only
  rcases hl with hs | ⟨c, hf⟩
  · rw [hs]
    dsimp only
    exact ⟨[], by rw [if_pos rfl]; simp⟩
  · rw [hf]
    exact ⟨["Error: will not overwrite regular file ".toList ++ l], by simp⟩

/-- Under `mkdirOk`, `install_mkdir` on a string succeeds, leaves the path a
directory, preserves every existing entry, and prints no warning. -/
theorem install_mkdir_str_of_mkdirOk (home s : Path) (st : FS)
    (h : mkdirOk st (expanduser home s) = true) :
    ∃ a : FsOut, install_mkdir home (.str s) st = .ok a ∧
      fsGet a.fs (expanduser home s) = some .dir ∧
      (∀ q e, fsGet st q = some e → fsGet a.fs q = some e) ∧
      a.warns = [] := by
  have hok : ∃ a : FsOut, install_mkdir home (.str s) st = .ok a := by
    unfold install_mkdir
    dsimp only
    unfold mkdirOk at h
    cases hv : fsGet st (expanduser home s) with
    | none =>
      have h1 : isdir st (expanduser home s) = false := by
        unfold isdir; rw [hv]; rfl
      have h2 : fsExists st (expanduser home s) = false := by
        unfold fsExists; rw [hv]; rfl
      rw [h1]
      simp only [Bool.false_eq_true, if_false, h2]
      exact ⟨_, rfl⟩
    | some e =>
      rw [hv] at h
      cases e with
      | dir =>
        have h1 : isdir st (expanduser home s) = true := by
          unfold isdir; rw [hv]; simp
        rw [h1]
        exact ⟨_, rfl⟩
      | file c => cases h
      | symlink t => cases h
      | special => cases h
  obtain ⟨a, ha⟩ := hok
  obtain ⟨-, hw, hdir, hpres⟩ := install_mkdir_str_ok home s st a ha
  exact ⟨a, ha, hdir, hpres, hw⟩

/-- C7: at a link path currently holding a regular file,
`install_symlink_one` refuses without failing: it returns normally (the run
continues), the file entry — content included — is untouched and no symlink
is created there, and the user-visible warning is printed; whereas at a link
path holding a directory or any other special entry type it raises
`NotImplementedError` ("Unknown existing file type") and removes nothing. -/
theorem C7_regular_file_refused_other_types_fatal :
    (∀ (home t l : Path) (st : FS) (c : Path),
        fsGet st l = some (.file c) →
        mkdirOk st (expanduser home (dirname l)) = true →
        ∃ o : FsOut, install_symlink_one home t l st = .ok o ∧
          fsGet o.fs l = some (.file c) ∧
          ("Error: will not overwrite regular file ".toList ++ l) ∈ o.warns) ∧
    (∀ (home t l : Path) (st : FS) (e : Entry),
        fsGet st l = some e → (e = .dir ∨ e = .special) →
        mkdirOk st (expanduser home (dirname l)) = true →
        ∃ st2 : FS,
          install_symlink_one home t l st = .error ("Unknown existing file type", st2) ∧
          fsGet st2 l = some e) := by
  constructor
  · intro home t l st c hfile hmk
    obtain ⟨a1, ha1, -, hpres, hw⟩ := install_mkdir_str_of_mkdirOk home (dirname l) st hmk
    have hl1 : fsGet a1.fs l = some (.file c) := hpres l _ hfile
    unfold install_symlink_one
    rw [ha1]
    dsimp only
    rw [hl1]
    dsimp only
    exact ⟨_, rfl, hl1, by rw [hw]; simp⟩
  · intro home t l st e hl he hmk
    obtain ⟨a1, ha1, -, hpres, -⟩ := install_mkdir_str_of_mkdirOk home (dirname l) st hmk
    have hl1 : fsGet a1.fs l = some e := hpres l _ hl
    unfold install_symlink_one
    rw [ha1]
    dsimp only
    rw [hl1]
    rcases he with rfl | rfl
    · exact ⟨a1.fs, rfl, hl1⟩
    · exact ⟨a1.fs, rfl, hl1⟩

/-- C7 witness: a concrete regular file is left intact with a warning, and a
concrete directory entry raises the unsupported-type error. -/
theorem C7_witness :
    (fsGet [("/d".toList, .dir), ("/d/f".toList, .file "data".toList)] "/d/f".toList =
       some (.file "data".toList) ∧
     mkdirOk [("/d".toList, .dir), ("/d/f".toList, .file "data".toList)]
       (expanduser "/h".toList (dirname "/d/f".toList)) = true ∧
     ∃ o : FsOut,
       install_symlink_one "/h".toList "t".toList "/d/f".toList
           [("/d".toList, .dir), ("/d/f".toList, .file "data".toList)] = .ok o ∧
         fsGet o.fs "/d/f".toList = some (.file "data".toList) ∧
         ("Error: will not overwrite regular file ".toList ++ "/d/f".toList) ∈ o.warns) ∧
    (∃ st2 : FS,
       install_symlink_one "/h".toList "t".toList "/d/e".toList
           [("/d".toList, .dir), ("/d/e".toList, .dir)] =
         .error ("Unknown existing file type", st2) ∧
       fsGet st2 "/d/e".toList = some .dir) :=
  ⟨⟨by decide, by decide,
    C7_regular_file_refused_other_types_fatal.1 "/h".toList "t".toList "/d/f".toList
      [("/d".toList, .dir), ("/d/f".toList, .file "data".toList)] "data".toList
      (by decide) (by decide)⟩,
   C7_regular_file_refused_other_types_fatal.2 "/h".toList "t".toList "/d/e".toList
      [("/d".toList, .dir), ("/d/e".toList, .dir)] .dir (by decide) (.inl rfl) (by decide)⟩

/-- A successful action leaves its own `stateOK` behind. -/
theorem runOp_ok_stateOK (home : Path) (o : Op) (st : FS) (a : FsOut)
    (h : runOp home o st = .ok a) : stateOK home o a.fs := by
  cases o with
  | mkdir raw =>
    obtain ⟨-, -, hdir, -⟩ := install_mkdir_str_ok home raw st a h
    exact hdir
  | symlink t l =>
    obtain ⟨hdir, hl, -⟩ := symlink_one_ok_fs home t l st a h
    exact ⟨hdir, hl⟩

/-- A satisfied action re-runs as a pure no-op: same state, no change log. -/
theorem runOp_noop (home : Path) (o : Op) (st : FS) (h : stateOK home o st) :
    ∃ acts w, runOp home o st = .ok ⟨st, acts, [], w⟩ := by
  cases o with
  | mkdir raw =>
    exact ⟨_, _, install_mkdir_str_isdir home raw st (by unfold isdir; rw [h]; simp)⟩
  | symlink t l =>
    obtain ⟨hd, hl⟩ := h
    obtain ⟨w, hw⟩ := symlink_one_noop home t l st (by unfold isdir; rw [hd]; simp) hl
    exact ⟨_, w, hw⟩

/-- `install_symlink_one` never succeeds on a link path currently holding a
directory. -/
theorem symlink_one_not_ok_of_dir (home t' l' : Path) (st : FS) (a : FsOut)
    (hd : fsGet st l' = some .dir) : install_symlink_one home t' l' st ≠ .ok a := by
  intro h
  unfold install_symlink_one at h
  cases hmk : install_mkdir home (.str (dirname l')) st with
  | error e => rw [hmk] at h; cases h
  | ok a1 =>
    rw [hmk] at h
    dsimp only at h
    obtain ⟨-, -, -, hpres⟩ := install_mkdir_str_ok home (dirname l') st a1 hmk
    rw [hpres l' .dir hd] at h
    cases h

/-- Executing any compatible action preserves another action's `stateOK`. -/
theorem runOp_preserves_stateOK (home : Path) (o o' : Op) (st : FS) (a : FsOut)
    (hok : stateOK home o st) (h : runOp home o' st = .ok a)
    (hc : compatB o o' = true) : stateOK home o a.fs := by
  cases o' with
  | mkdir raw' =>
    obtain ⟨-, -, -, hpres⟩ := install_mkdir_str_ok home raw' st a h
    cases o with
    | mkdir raw => exact hpres _ _ hok
    | symlink t l =>
      obtain ⟨hd, hl⟩ := hok
      refine ⟨hpres _ _ hd, ?_⟩
      rcases hl with h1 | ⟨c, h1⟩
      · exact .inl (hpres _ _ h1)
      · exact .inr ⟨c, hpres _ _ h1⟩
  | symlink t' l' =>
    obtain ⟨hdir', hl', hpres⟩ := symlink_one_ok_fs home t' l' st a h
    cases o with
    | mkdir raw =>
      by_cases hq : expanduser home raw = l'
      · exact absurd h (symlink_one_not_ok_of_dir home t' l' st a (hq ▸ hok))
      · exact hpres _ _ hq hok
    | symlink t l =>
      obtain ⟨hd, hl⟩ := hok
      have hdd : fsGet a.fs (expanduser home (dirname l)) = some .dir := by
        by_cases hq : expanduser home (dirname l) = l'
        · exact absurd h (symlink_one_not_ok_of_dir home t' l' st a (hq ▸ hd))
        · exact hpres _ _ hq hd
      refine ⟨hdd, ?_⟩
      by_cases hq : l = l'
      · subst hq
        have ht : t = t' := by
          unfold compatB at hc
          simp only [bne_self_eq_false, Bool.false_or, beq_iff_eq] at hc
          exact hc
        subst ht
        exact hl'
      · rcases hl with h1 | ⟨c, h1⟩
        · exact .inl (hpres _ _ hq h1)
        · exact .inr ⟨c, hpres _ _ hq h1⟩

/-- A whole successful run of compatible actions preserves `stateOK`. -/
theorem runOps_preserves_stateOK (home : Path) (o : Op) (ops : List Op) :
    ∀ (st : FS) (a : FsOut), stateOK home o st → runOps home ops st = .ok a →
      (∀ o' ∈ ops, compatB o o' = true) → stateOK home o a.fs := by
  induction ops with
  | nil =>
    intro st a hok h _
    cases h
    exact hok
  | cons o' rest ih =>
    intro st a hok h hc
    unfold runOps at h
    cases h1 : runOp home o' st with
    | error e => rw [h1] at h; cases h
    | ok a1 =>
      rw [h1] at h
      dsimp only at h
      unfold seqOut at h
      cases h2 : runOps home rest a1.fs with
      | error e => rw [h2] at h; cases h
      | ok b =>
        rw [h2] at h
        dsimp only at h
        cases h
        have hok1 := runOp_preserves_stateOK home o o' st a1 hok h1 (hc o' (by simp))
        exact ih a1.fs b hok1 h2 (fun x hx => hc x (by simp [hx]))

/-- After a successful run of a pairwise-compatible plan, every action of
the plan is satisfied in the final state. -/
theorem runOps_ok_all_stateOK (home : Path) (ops : List Op) :
    ∀ (st : FS) (a : FsOut), runOps home ops st = .ok a →
      (∀ o ∈ ops, ∀ o' ∈ ops, compatB o o' = true) →
      ∀ o ∈ ops, stateOK home o a.fs := by
  induction ops with
  | nil => intro st a h hc o ho; cases ho
  | cons o0 rest ih =>
    intro st a h hc o ho
    unfold runOps at h
    cases h1 : runOp home o0 st with
    | error e => rw [h1] at h; cases h
    | ok a1 =>
      rw [h1] at h
      dsimp only at h
      unfold seqOut at h
      cases h2 : runOps home rest a1.fs with
      | error e => rw [h2] at h; cases h
      | ok b =>
        rw [h2] at h
        dsimp only at h
        cases h
        rcases List.mem_cons.mp ho with rfl | ho'
        · have hs0 := runOp_ok_stateOK home o st a1 h1
          exact runOps_preserves_stateOK home o rest a1.fs b hs0 h2
            (fun o' ho' => hc o (by simp) o' (by simp [ho']))
        · exact ih a1.fs b h2
            (fun x hx y hy => hc x (by simp [hx]) y (by simp [hy])) o ho'

/-- A run over a plan every action of which is already satisfied is a
no-op: final state unchanged and no change log at all. -/
theorem runOps_noop_of_all_stateOK (home : Path) (ops : List Op) (st : FS)
    (h : ∀ o ∈ ops, stateOK home o st) :
    ∃ a : FsOut, runOps home ops st = .ok a ∧ a.fs = st ∧ a.logs = [] := by
  induction ops with
  | nil => exact ⟨⟨st, [], [], []⟩, rfl, rfl, rfl⟩
  | cons o rest ih =>
    obtain ⟨acts, w, hop⟩ := runOp_noop home o st (h o (by simp))
    obtain ⟨b, hb, hbfs, hblogs⟩ := ih (fun o' ho' => h o' (by simp [ho']))
    refine ⟨⟨b.fs, acts ++ b.actions, [] ++ b.logs, w ++ b.warns⟩, ?_, ?_, ?_⟩
    · unfold runOps
      rw [hop]
      unfold seqOut
      dsimp only
      rw [hb]
    · simpa using hbfs
    · simpa using hblogs

/-- C2 (amended): a second `install` run immediately after a successful one,
with no intervening filesystem change, leaves the filesystem identical and
reports zero "changed" (`log()`) actions — provided the plan is pairwise
compatible (no two symlink actions demand different targets at the same link
path); and in particular, when the entry at a link path is already a symlink
whose stored target equals the desired target (and its parent directory
exists), `install_symlink_one` performs no filesystem operation and emits no
change log. -/
theorem C2_install_idempotent :
    (∀ (home : Path) (ops : List Op) (st : FS) (o1 : FsOut),
        (ops.all fun o => ops.all fun o' => compatB o o') = true →
        runOps home ops st = .ok o1 →
        ∃ o2 : FsOut, runOps home ops o1.fs = .ok o2 ∧ o2.fs = o1.fs ∧ o2.logs = []) ∧
    (∀ (home t l : Path) (st : FS),
        fsGet st (expanduser home (dirname l)) = some .dir →
        fsGet st l = some (.symlink t) →
        install_symlink_one home t l st =
          .ok ⟨st, [.mkdir (expanduser home (dirname l)), .symlink t l], [], []⟩) := by
  constructor
  · intro home ops st o1 hc h
    have hc' : ∀ o ∈ ops, ∀ o' ∈ ops, compatB o o' = true := by
      intro o ho o' ho'
      have := List.all_eq_true.mp hc o ho
      exact List.all_eq_true.mp this o' ho'
    exact runOps_noop_of_all_stateOK home ops o1.fs
      (runOps_ok_all_stateOK home ops st o1 h hc')
  · intro home t l st hd hl
    unfold install_symlink_one
    rw [install_mkdir_str_isdir home (dirname l) st (by unfold isdir; rw [hd]; simp)]
    dsimp only
    rw [hl]
    dsimp only
    rw [if_pos rfl]
    simp

/-- C2 counterexample: a plan demanding two different targets at the same
link path.  The first run succeeds; the second run ends in the identical
filesystem state but logs two `SYMLINK` change events — not zero — refuting
the claim as universally stated. -/
theorem C2_counterexample :
    ((runOps "/h".toList
        [.symlink "A".toList "/d/l".toList, .symlink "B".toList "/d/l".toList]
        [("/d".toList, .dir)]).toOption.bind fun o1 =>
      (runOps "/h".toList
        [.symlink "A".toList "/d/l".toList, .symlink "B".toList "/d/l".toList]
        o1.fs).toOption.map fun o2 =>
        (decide (o2.fs = o1.fs), o2.logs.length)) = some (true, 2) := by decide

/-- C2 witness: a compatible one-action plan run twice — the second run
keeps the state and logs nothing. -/
theorem C2_witness :
    (([Op.symlink "A".toList "/d/l".toList].all fun o =>
        [Op.symlink "A".toList "/d/l".toList].all fun o' => compatB o o') = true ∧
     runOps "/h".toList [.symlink "A".toList "/d/l".toList] [("/d".toList, .dir)] =
       .ok ⟨[("/d/l".toList, .symlink "A".toList), ("/d".toList, .dir)],
            [.mkdir "/d".toList, .symlink "A".toList "/d/l".toList],
            ["SYMLINK /d/l".toList], []⟩) ∧
    (∃ o2 : FsOut,
      runOps "/h".toList [.symlink "A".toList "/d/l".toList]
          (FsOut.mk [("/d/l".toList, .symlink "A".toList), ("/d".toList, .dir)]
            [.mkdir "/d".toList, .symlink "A".toList "/d/l".toList]
            ["SYMLINK /d/l".toList] []).fs = .ok o2 ∧
      o2.fs = (FsOut.mk [("/d/l".toList, .symlink "A".toList), ("/d".toList, .dir)]
            [.mkdir "/d".toList, .symlink "A".toList "/d/l".toList]
            ["SYMLINK /d/l".toList] []).fs ∧
      o2.logs = []) :=
  ⟨⟨by decide, by rfl⟩,
   C2_install_idempotent.1 "/h".toList [.symlink "A".toList "/d/l".toList]
     [("/d".toList, .dir)] _ (by decide) (by rfl)⟩

/-- When no remaining line strips to the `...` sentinel, the block loop of
`_source_load` never finishes, for any amount of fuel: past end-of-file
`readline` keeps returning `""`, which never equals the sentinel. -/
theorem readBlock_none_of_no_sentinel (indent : Nat) :
    ∀ (fuel : Nat) (fs : FileLines) (acc : List Path),
      fs.all (fun l => rstripWs (l.drop indent) != "...".toList) = true →
      readBlock fuel indent fs acc = none := by
  intro fuel
  induction fuel with
  | zero => intro fs acc h; rfl
  | succ n ih =>
    intro fs acc h
    cases fs with
    | nil =>
      unfold readBlock readline
      dsimp only
      have hx : rstripWs (List.drop indent ([] : Path)) = [] := by
        rw [List.drop_nil]
        rfl
      rw [if_neg (by rw [hx]; decide)]
      exact ih [] _ (by simp)
    | cons l ls =>
      unfold readBlock readline
      dsimp only
      have hl : rstripWs (l.drop indent) ≠ "...".toList := by
        have := List.all_eq_true.mp h l (by simp)
        simpa using this
      rw [if_neg hl]
      exact ih ls _ (by
        apply List.all_eq_true.mpr
        intro x hx
        exact List.all_eq_true.mp h x (by simp [hx]))

/-- C4: when the `:dotsctl:` marker is found but no subsequent line strips
to the `...` sentinel before end-of-file, `_source_load` does not terminate
(it neither returns metadata, nor reports "no metadata", nor raises): the
`while True` block loop runs forever, modelled as `none` for every fuel. -/
theorem C4_eof_before_sentinel_hangs (file : FileLines) (indent : Nat)
    (rest : FileLines)
    (hfind : findHeader 30 file = some (indent, rest))
    (hns : rest.all (fun l => rstripWs (l.drop indent) != "...".toList) = true) :
    ∀ fuel : Nat, source_load fuel file = none := by
  intro fuel
  unfold source_load
  rw [hfind]
  dsimp only
  rw [readBlock_none_of_no_sentinel indent fuel rest [] hns]

/-- C4 witness: a concrete file with the marker and no sentinel. -/
theorem C4_witness :
    findHeader 30 [":dotsctl:".toList, "dest: /a".toList] =
      some (0, ["dest: /a".toList]) ∧
    (["dest: /a".toList].all
      (fun l => rstripWs (l.drop 0) != "...".toList)) = true ∧
    source_load 9 [":dotsctl:".toList, "dest: /a".toList] = none :=
  ⟨by decide, by decide,
   C4_eof_before_sentinel_hangs [":dotsctl:".toList, "dest: /a".toList] 0
     ["dest: /a".toList] (by decide) (by decide) 9⟩

/-- C10: for a resolved source whose callback returns non-`None`,
`sources_foreach` invokes the callback twice on the same (filename,
metadata) pair — the counter advances by two — and the returned action list
is the `ActionSource` marker followed by only the second invocation's
actions (tagged `n + 1`; the first invocation's result, tagged `n`, is
discarded). -/
theorem C10_func_invoked_twice (s : Path) (md : Metadata) (n : Nat) :
    sources_foreach (fun _ => true) (fun _ => []) (fun _ => some md) [s]
      countingFunc n =
      .ok (n + 2, [.source s, .package (Nat.toDigits 10 (n + 1))]) := by
  rfl

/-- If the scanning phase completes, no file with metadata in the remaining
work list was already recorded in `data`. -/
theorem scanAll_ok_not_in_data (loadMeta : Path → Option Metadata) :
    ∀ (files : List Path) (data data' : List (Path × Metadata)),
      scanAll loadMeta files data = .ok data' →
      ∀ g ∈ files, (loadMeta g).isSome = true →
        data.any (fun e => e.1 = g) = false := by
  intro files
  induction files with
  | nil => intro data data' h g hg; cases hg
  | cons f rest ih =>
    intro data data' h g hg hm
    unfold scanAll at h
    cases hap : source_append loadMeta data f with
    | error e => rw [hap] at h; cases h
    | ok d1 =>
      rw [hap] at h
      dsimp only at h
      unfold source_append at hap
      by_cases hin : data.any (fun e => e.1 = f) = true
      · rw [if_pos hin] at hap; cases hap
      · rw [if_neg hin] at hap
        rcases List.mem_cons.mp hg with rfl | hg'
        · exact Bool.eq_false_iff.mpr hin
        · have hd1 := ih d1 data' h g hg' hm
          cases hlm : loadMeta f with
          | none => rw [hlm] at hap; cases hap; exact hd1
          | some md =>
            rw [hlm] at hap
            cases hap
            rw [Bool.eq_false_iff]
            intro hany
            rw [Bool.eq_false_iff] at hd1
            apply hd1
            simp only [List.any_eq_true] at hany ⊢
            obtain ⟨x, hx, hxe⟩ := hany
            exact ⟨x, by simp [hx], hxe⟩

/-- If the scanning phase completes, the expansion list contained no
duplicated metadata-carrying path. -/
theorem scanAll_ok_no_dup (loadMeta : Path → Option Metadata) :
    ∀ (files : List Path) (data data' : List (Path × Metadata)),
      scanAll loadMeta files data = .ok data' →
      hasDupLoaded loadMeta files = false := by
  intro files
  induction files with
  | nil => intro data data' h; rfl
  | cons f rest ih =>
    intro data data' h
    unfold scanAll at h
    cases hap : source_append loadMeta data f with
    | error e => rw [hap] at h; cases h
    | ok d1 =>
      rw [hap] at h
      dsimp only at h
      unfold hasDupLoaded
      rw [ih d1 data' h]
      simp only [Bool.or_false, Bool.and_eq_false_iff]
      cases hlm : loadMeta f with
      | none => left; rfl
      | some md =>
        right
        unfold source_append at hap
        by_cases hin : data.any (fun e => e.1 = f) = true
        · rw [if_pos hin] at hap; cases hap
        · rw [if_neg hin] at hap
          rw [hlm] at hap
          cases hap
          rw [Bool.eq_false_iff]
          intro hcon
          have := scanAll_ok_not_in_data loadMeta rest _ data' h f
            (by simpa using hcon) (by rw [hlm]; rfl)
          simp at this

/-- C5 (amended): when the expansion of the root list reaches the same
metadata-carrying path string twice, `sources_foreach` fails with the
duplicate-source error during the scanning phase, before the per-file
function has been invoked even once: the resulting error is the same for
every `func` and every state, so no install (and hence no filesystem
mutation) happens.  Note the path must be reached via two *distinct* roots:
identical explicit roots are silently de-duplicated by the `sources` dict,
and duplicate detection compares the literal path strings. -/
theorem C5_duplicate_fails_before_any_install
    (isFile : Path → Bool) (globF : Path → List Path)
    (loadMeta : Path → Option Metadata) (pathname : List Path)
    (hdup : hasDupLoaded loadMeta
      (expandFiles isFile globF (buildSources pathname)) = true) :
    ∃ msg : String,
      ∀ (σ : Type) (func : Path → Metadata → σ → σ × Option (List Action)) (st : σ),
        sources_foreach isFile globF loadMeta pathname func st = .error msg := by
  cases hscan : scanAll loadMeta (expandFiles isFile globF (buildSources pathname)) [] with
  | ok data =>
    have := scanAll_ok_no_dup loadMeta _ [] data hscan
    rw [this] at hdup
    cases hdup
  | error msg =>
    refine ⟨msg, fun σ func st => ?_⟩
    unfold sources_foreach
    rw [hscan]

/-- C5 counterexample: two *identical* explicit roots are de-duplicated by
the `sources` dict, so the same file is scanned once and no duplicate-source
error is raised, contrary to the claim's "two identical explicit roots"
case. -/
theorem C5_counterexample :
    sources_foreach (fun _ => true) (fun _ => []) (fun _ => some Metadata.empty)
      ["/s".toList, "/s".toList] (fun _ _ (n : Nat) => (n, some [])) 0 =
      .ok (0, [.source "/s".toList]) := by
  rfl

/-- C5 witness: overlapping distinct roots (a directory and a file inside
it) trigger the duplicate-source error independently of the callback. -/
theorem C5_witness :
    hasDupLoaded (fun _ => some Metadata.empty)
      (expandFiles (fun p => p == "/d/f".toList) (fun _ => ["/d/f".toList])
        (buildSources ["/d".toList, "/d/f".toList])) = true ∧
    ∃ msg : String,
      ∀ (σ : Type) (func : Path → Metadata → σ → σ × Option (List Action)) (st : σ),
        sources_foreach (fun p => p == "/d/f".toList) (fun _ => ["/d/f".toList])
          (fun _ => some Metadata.empty) ["/d".toList, "/d/f".toList] func st =
          .error msg :=
  ⟨by decide,
   C5_duplicate_fails_before_any_install (fun p => p == "/d/f".toList)
     (fun _ => ["/d/f".toList]) (fun _ => some Metadata.empty)
     ["/d".toList, "/d/f".toList] (by decide)⟩

/-- When `destdir` is present, a successful `install_one` returns its
metadata argument with `destdir` normalized to a list and `dest` overwritten
by the synthesized `destdir + basename(filename)` paths. -/
theorem install_one_destdir_writeback (home cwd filename : Path) (mkv : Option MVal)
    (sy : Option (List (Path × Path))) (sl : SL) (de : Option SL) (se : Option Bool)
    (dc : Option (List (Path × Metadata))) (st : FS) (r : FsOut × Metadata)
    (h : install_one home cwd filename (.mk mkv sy (some sl) de se dc) st = .ok r) :
    r.2.destdirK = some (.list sl.toListP) ∧
    r.2.destK = some (.list (sl.toListP.map (fun d => pjoin d (basename filename)))) := by
  rw [install_one] at h
  cases h1 : step_pre home mkv sy st with
  | error e => rw [h1] at h; cases h
  | ok o2 =>
    rw [h1] at h
    dsimp only at h
    cases h2 : step_dots home cwd (dirname filename) dc o2.fs with
    | error e => rw [h2] at h; cases h
    | ok p =>
      obtain ⟨o3', dc'⟩ := p
      rw [h2] at h
      dsimp only at h
      simp only [step_destdir] at h
      cases h3 : install_dest home cwd filename se
          (SL.toListP (.list (sl.toListP.map (fun d => pjoin d (basename filename)))))
          (FsOut.app o2 o3').fs with
      | error e =>
        rw [h3] at h
        cases h
      | ok o4' =>
        rw [h3] at h
        dsimp only at h
        cases h
        constructor
        · rfl
        · simp [Metadata.destK, SL.toListP]

/-- C1 counterexample: `install_one` does mutate the metadata mapping.  With
`destdir: "/a"` and no `dest`, the metadata after the call carries
`destdir = ["/a"]` (normalized in place) and `dest = ["/a/x"]` (the computed
dest list written back), while the metadata before the call had no `dest`
key at all. -/
theorem C1_counterexample :
    (install_one "/h".toList "/c".toList "x".toList
        (.mk none none (some (.str "/a".toList)) none none none) []).map
      (fun r => (r.2.destdirK, r.2.destK)) =
      .ok (some (.list ["/a".toList]), some (.list ["/a/x".toList])) ∧
    (Metadata.mk none none (some (.str "/a".toList)) none none none).destK = none ∧
    (some (SL.list ["/a/x".toList]) : Option SL) ≠ none := by
  refine ⟨?_, rfl, by simp⟩
  simp only [install_one, step_dots.eq_def, install_dots]
  rfl

/-- C1 (amended): `install_one` is not free of side effects on its metadata
argument: with a `destdir` key present it writes the computed dest list into
`metadata["dest"]` (and normalizes `destdir` in place), so the metadata
after the call differs from its value before the call. -/
theorem C1_install_one_mutates_metadata (home cwd filename : Path)
    (mkv : Option MVal) (sy : Option (List (Path × Path))) (sl : SL)
    (se : Option Bool) (dc : Option (List (Path × Metadata))) (st : FS)
    (r : FsOut × Metadata)
    (h : install_one home cwd filename (.mk mkv sy (some sl) none se dc) st = .ok r) :
    r.2.destK = some (.list (sl.toListP.map (fun d => pjoin d (basename filename)))) ∧
    r.2.destK ≠ (Metadata.mk mkv sy (some sl) none se dc).destK := by
  obtain ⟨-, h2⟩ := install_one_destdir_writeback home cwd filename mkv sy sl none se dc st r h
  refine ⟨h2, ?_⟩
  rw [h2]
  simp [Metadata.destK]

/-- C1 witness. -/
theorem C1_witness :
    install_one "/h".toList "/c".toList "x".toList
        (.mk none none (some (.list [])) none none none) [] =
      .ok (⟨[], [], [], []⟩,
           .mk none none (some (.list [])) (some (.list [])) none none) ∧
    ((⟨[], [], [], []⟩, Metadata.mk none none (some (.list [])) (some (.list []))
        none none) : FsOut × Metadata).2.destK = some (.list []) ∧
    ((⟨[], [], [], []⟩, Metadata.mk none none (some (.list [])) (some (.list []))
        none none) : FsOut × Metadata).2.destK ≠
      (Metadata.mk none none (some (.list [])) none none none).destK :=
  have hE : install_one "/h".toList "/c".toList "x".toList
      (.mk none none (some (.list [])) none none none) [] =
      .ok (⟨[], [], [], []⟩,
           .mk none none (some (.list [])) (some (.list [])) none none) := by
    simp only [install_one, step_dots.eq_def, install_dots]
    rfl
  ⟨hE, C1_install_one_mutates_metadata "/h".toList "/c".toList "x".toList
    none none (.list []) none none [] _ hE⟩

/-- C3 counterexample: with both `destdir: "/a"` and an explicit
`dest: "/e"` present, the effective destination list is exactly the
synthesized `["/a/x"]` — the explicit `"/e"` is dropped, not united: only
one symlink action is produced and its link path is `/a/x`. -/
theorem C3_counterexample :
    (install_one "/h".toList "/c".toList "x".toList
        (.mk none none (some (.str "/a".toList)) (some (.str "/e".toList))
          none none) []).map
      (fun r => (r.1.actions, r.2.destK)) =
      .ok ([.mkdir "/a".toList, .symlink "../c/x".toList "/a/x".toList],
           some (.list ["/a/x".toList])) ∧
    ¬ ("/e".toList ∈ (["/a/x".toList] : List Path)) := by
  constructor
  · simp only [install_one, step_dots.eq_def, install_dots]
    rfl
  · decide

/-- C3 (amended): when metadata contains both `destdir` and an explicit
`dest`, the synthesized `destdir + basename` list *replaces* the explicit
`dest` list — the effective destination list is exactly the synthesized
one, independent of the explicit entries. -/
theorem C3_destdir_replaces_dest (home cwd filename : Path) (mkv : Option MVal)
    (sy : Option (List (Path × Path))) (sl esl : SL) (se : Option Bool)
    (dc : Option (List (Path × Metadata))) (st : FS) (r : FsOut × Metadata)
    (h : install_one home cwd filename (.mk mkv sy (some sl) (some esl) se dc) st =
      .ok r) :
    r.2.destK = some (.list (sl.toListP.map (fun d => pjoin d (basename filename)))) :=
  (install_one_destdir_writeback home cwd filename mkv sy sl (some esl) se dc st r h).2

/-- C3 witness. -/
theorem C3_witness :
    install_one "/h".toList "/c".toList "x".toList
        (.mk none none (some (.list [])) (some (.str "/e".toList)) none none) [] =
      .ok (⟨[], [], [], []⟩,
           .mk none none (some (.list [])) (some (.list [])) none none) ∧
    ((⟨[], [], [], []⟩, Metadata.mk none none (some (.list [])) (some (.list []))
        none none) : FsOut × Metadata).2.destK = some (.list []) :=
  have hE : install_one "/h".toList "/c".toList "x".toList
      (.mk none none (some (.list [])) (some (.str "/e".toList)) none none) [] =
      .ok (⟨[], [], [], []⟩,
           .mk none none (some (.list [])) (some (.list [])) none none) := by
    simp only [install_one, step_dots.eq_def, install_dots]
    rfl
  ⟨hE, C3_destdir_replaces_dest "/h".toList "/c".toList "x".toList
    none none (.list []) (.str "/e".toList) none none [] _ hE⟩

/-- C6 counterexample: the extension examined by the stripping rule is the
*destination's*, not the source file's.  Source `foo.py` (extension `.py`)
with explicit `dest: "/bin/tool.sh"` keeps `.sh`: the installed link path is
`/bin/tool.sh`, not `/bin/tool` as the claim would require. -/
theorem C6_counterexample :
    (install_one "/h".toList "/c".toList "foo.py".toList
        (.mk none none none (some (.str "/bin/tool.sh".toList)) none none) []).map
      (fun r => r.1.actions) =
      .ok [.mkdir "/bin".toList,
           .symlink "../c/foo.py".toList "/bin/tool.sh".toList] ∧
    splitext "foo.py".toList = ("foo".toList, ".py".toList) ∧
    "/bin/tool.sh".toList ≠ "/bin/tool".toList := by
  refine ⟨?_, by decide, by decide⟩
  simp only [install_one, step_dots.eq_def, install_dots]
  rfl

/-- C6 (amended): for a `dest` entry, the symlink is installed at
`dest_path`, and with no explicit `strip_extension` the extension is dropped
if and only if the *destination's* extension is `.py`; an explicit
`strip_extension` value decides regardless. -/
theorem C6_strip_uses_dest_extension (home cwd filename : Path) (se : Option Bool)
    (d : Path) (st : FS) (r : FsOut × Metadata)
    (h : install_one home cwd filename
        (.mk none none none (some (.str d)) se none) st = .ok r) :
    r.1.actions =
      [.mkdir (expanduser home (dirname (dest_path home se d))),
       .symlink (relpath cwd (abspath cwd filename) (dirname (dest_path home se d)))
         (dest_path home se d)] ∧
    dest_path home none d =
      (if (splitext (expanduser home d)).2 = ".py".toList
       then (splitext (expanduser home d)).1 else expanduser home d) ∧
    (∀ b : Bool, dest_path home (some b) d =
      (if b then (splitext (expanduser home d)).1 else expanduser home d)) := by
  refine ⟨?_, ?_, ?_⟩
  · rw [install_one] at h
    simp only [step_pre, step_dots.eq_def, step_destdir, SL.toListP] at h
    unfold install_dest at h
    dsimp only at h
    cases h3 : install_symlink_one home
        (relpath cwd (abspath cwd filename) (dirname (dest_path home se d)))
        (dest_path home se d)
        (FsOut.app ⟨st, [], [], []⟩ ⟨st, [], [], []⟩).fs with
    | error e => rw [h3] at h; cases h
    | ok o =>
      rw [h3] at h
      dsimp only at h
      unfold install_dest at h
      dsimp only [seqOut] at h
      cases h
      have ha := symlink_one_ok_actions home _ _ _ _ h3
      dsimp only [FsOut.app]
      rw [ha]
      simp
  · unfold dest_path
    dsimp only [Option.getD]
    by_cases hp : (splitext (expanduser home d)).2 = ".py".toList
    · simp [hp]
    · simp [hp]
  · intro b
    cases b with
    | true => simp [dest_path, Option.getD]
    | false => simp [dest_path, Option.getD]

/-- C6 witness: source `f.sh` with `dest: "/bin/tool.py"` — the destination's
`.py` extension is stripped (and the source's `.sh` is irrelevant). -/
theorem C6_witness :
    install_one "/h".toList "/c".toList "f.sh".toList
        (.mk none none none (some (.str "/bin/tool.py".toList)) none none) [] =
      .ok (⟨[("/bin/tool".toList, .symlink "../c/f.sh".toList),
             ("/bin".toList, .dir), ("/".toList, .dir)],
            [.mkdir "/bin".toList, .symlink "../c/f.sh".toList "/bin/tool".toList],
            ["MKDIR /bin".toList, "SYMLINK /bin/tool".toList], []⟩,
           .mk none none none (some (.list ["/bin/tool.py".toList])) none none) ∧
    ((⟨[("/bin/tool".toList, .symlink "../c/f.sh".toList),
        ("/bin".toList, .dir), ("/".toList, .dir)],
       [.mkdir "/bin".toList, .symlink "../c/f.sh".toList "/bin/tool".toList],
       ["MKDIR /bin".toList, "SYMLINK /bin/tool".toList], []⟩ : FsOut).actions =
      [.mkdir (expanduser "/h".toList (dirname (dest_path "/h".toList none "/bin/tool.py".toList))),
       .symlink (relpath "/c".toList (abspath "/c".toList "f.sh".toList)
           (dirname (dest_path "/h".toList none "/bin/tool.py".toList)))
         (dest_path "/h".toList none "/bin/tool.py".toList)] ∧
     dest_path "/h".toList none "/bin/tool.py".toList =
       (if (splitext (expanduser "/h".toList "/bin/tool.py".toList)).2 = ".py".toList
        then (splitext (expanduser "/h".toList "/bin/tool.py".toList)).1
        else expanduser "/h".toList "/bin/tool.py".toList) ∧
     (∀ b : Bool, dest_path "/h".toList (some b) "/bin/tool.py".toList =
       (if b then (splitext (expanduser "/h".toList "/bin/tool.py".toList)).1
        else expanduser "/h".toList "/bin/tool.py".toList))) :=
  have hE : install_one "/h".toList "/c".toList "f.sh".toList
      (.mk none none none (some (.str "/bin/tool.py".toList)) none none) [] =
      .ok (⟨[("/bin/tool".toList, .symlink "../c/f.sh".toList),
             ("/bin".toList, .dir), ("/".toList, .dir)],
            [.mkdir "/bin".toList, .symlink "../c/f.sh".toList "/bin/tool".toList],
            ["MKDIR /bin".toList, "SYMLINK /bin/tool".toList], []⟩,
           .mk none none none (some (.list ["/bin/tool.py".toList])) none none) := by
    simp only [install_one, step_dots.eq_def, install_dots]
    rfl
  ⟨hE, C6_strip_uses_dest_extension "/h".toList "/c".toList "f.sh".toList none
    "/bin/tool.py".toList [] _ hE⟩

theorem FsOut.app_empty_right (o : FsOut) : FsOut.app o ⟨o.fs, [], [], []⟩ = o := by
  cases o
  simp [FsOut.app]

theorem FsOut.app_empty_left (st : FS) (o : FsOut) : FsOut.app ⟨st, [], [], []⟩ o = o := by
  cases o
  simp [FsOut.app]

/-- C8 counterexample: a nested `dotsctl` name resolving to the very path
being planned is recursively planned *without any error*: with metadata
`{dotsctl: {f: {}}}` for file `/d/f`, where `join(dirname("/d/f"), "f") =
"/d/f"`, `install_one` returns successfully. -/
theorem C8_counterexample :
    install_one "/h".toList "/c".toList "/d/f".toList
        (.mk none none none none none (some [("f".toList, Metadata.empty)])) [] =
      .ok (⟨[], [], [], []⟩,
           .mk none none none none none (some [("f".toList, Metadata.empty)])) ∧
    pjoin (dirname "/d/f".toList) "f".toList = "/d/f".toList := by
  constructor
  · simp only [install_one, step_dots.eq_def, install_dots, Metadata.empty, step_pre,
      sortByKey, insertByKey, remapDots]
    rfl
  · decide

/-- C8 (amended): `install_one` performs no cycle check at all: a metadata
block whose single nested `dotsctl` entry resolves to the same path as the
file currently being planned is simply planned recursively at that same
path, producing exactly the nested block's own plan (and the nested block's
error, if any) — never a cycle error.  Planning terminates only because a
parsed metadata value is a finite tree. -/
theorem C8_same_path_recursion_not_an_error (home cwd f name : Path)
    (m : Metadata) (st : FS)
    (hsame : pjoin (dirname f) name = f) :
    (install_one home cwd f (.mk none none none none none (some [(name, m)])) st).map
        (fun r => r.1) =
      (install_one home cwd f m st).map (fun r => r.1) := by
  conv_lhs => rw [install_one]
  dsimp only [step_pre]
  simp only [step_dots.eq_def]
  dsimp only [sortByKey, insertByKey]
  simp only [install_dots]
  rw [hsame]
  cases h : install_one home cwd f m st with
  | error e => rfl
  | ok p =>
    obtain ⟨o, m'⟩ := p
    dsimp only [install_dots]
    simp only [FsOut.app_empty_right, FsOut.app_empty_left, step_destdir]
    rfl

/-- C8 witness. -/
theorem C8_witness :
    pjoin (dirname "/d/f".toList) "f".toList = "/d/f".toList ∧
    (install_one "/h".toList "/c".toList "/d/f".toList
        (.mk none none none none none (some [("f".toList, Metadata.empty)])) []).map
        (fun r => r.1) =
      (install_one "/h".toList "/c".toList "/d/f".toList Metadata.empty []).map
        (fun r => r.1) :=
  ⟨by decide,
   C8_same_path_recursion_not_an_error "/h".toList "/c".toList "/d/f".toList
     "f".toList Metadata.empty [] (by decide)⟩

theorem expanduser_eq_self_of_head (home p : Path) (h : p.head? ≠ some '~') :
    expanduser home p = p := by
  unfold expanduser
  rw [if_neg h]

theorem expanduser_eq_self_of_user (home : Path) (c : Char) (rest : Path)
    (hc : c ≠ '/') : expanduser home ('~' :: c :: rest) = '~' :: c :: rest := by
  unfold expanduser
  simp only [List.head?_cons, List.tail_cons]
  rw [if_pos trivial]
  rw [if_neg (by simp [hc])]

theorem splitLast_cons_of_contains (c : Char) (rest : Path)
    (h : rest.contains '/' = true) :
    splitLast (c :: rest) = (c :: (splitLast rest).1, (splitLast rest).2) := by
  simp only [splitLast]
  rw [if_pos h]

theorem splitLast_cons_of_not_contains (c : Char) (rest : Path)
    (h : ¬ rest.contains '/' = true) (hc : c ≠ '/') :
    splitLast (c :: rest) = ([], c :: rest) := by
  simp only [splitLast]
  rw [if_neg h, if_neg hc]

theorem splitLast_head (l : Path) :
    (splitLast l).1 = [] ∨ (splitLast l).1.head? = l.head? := by
  cases l with
  | nil => exact .inl rfl
  | cons c rest =>
    by_cases hcon : rest.contains '/' = true
    · rw [splitLast_cons_of_contains c rest hcon]
      exact .inr rfl
    · by_cases h2 : c = '/'
      · right
        simp only [splitLast]
        rw [if_neg hcon, if_pos h2]
        simp [h2]
      · rw [splitLast_cons_of_not_contains c rest hcon h2]
        exact .inl rfl

theorem rstripSlash_cons_ne (c : Char) (z : Path) (hc : c ≠ '/') :
    rstripSlash (c :: z) = c :: rstripSlash z := by
  simp only [rstripSlash]
  rw [if_neg (by simp [hc])]

theorem rstripSlash_shape (c : Char) (z : Path) :
    rstripSlash (c :: z) = [] ∨ ∃ w, rstripSlash (c :: z) = c :: w := by
  simp only [rstripSlash]
  split
  · exact .inl rfl
  · exact .inr ⟨_, rfl⟩

theorem dirname_head (l : Path) :
    dirname l = [] ∨ (dirname l).head? = l.head? := by
  unfold dirname
  dsimp only
  by_cases hh : (splitLast l).1 = []
  · rw [if_pos hh]
    exact .inl rfl
  · rw [if_neg hh]
    rcases splitLast_head l with h | h
    · exact absurd h hh
    · by_cases hall : (splitLast l).1.all (fun x => decide (x = '/')) = true
      · rw [if_pos hall]
        exact .inr h
      · rw [if_neg hall]
        obtain ⟨c, w, hcw⟩ : ∃ c w, (splitLast l).1 = c :: w := by
          cases hsp : (splitLast l).1 with
          | nil => exact absurd hsp hh
          | cons c w => exact ⟨c, w, rfl⟩
        rw [hcw]
        rcases rstripSlash_shape c w with h0 | ⟨w', hw'⟩
        · rw [h0]
          exact .inl rfl
        · rw [hw']
          right
          rw [← h, hcw]
          rfl

theorem dirname_tilde_shape (c : Char) (rest : Path) (hc : c ≠ '/') :
    dirname ('~' :: c :: rest) = [] ∨
    ∃ w, dirname ('~' :: c :: rest) = '~' :: c :: w := by
  by_cases hcr : (c :: rest).contains '/' = true
  · right
    have hrc : rest.contains '/' = true := by
      simp only [List.contains_cons] at hcr
      rcases Bool.or_eq_true _ _ |>.mp hcr with h | h
      · exfalso
        apply hc
        have h' : '/' = c := by simpa using h
        exact h'.symm
      · exact h
    have hsl : (splitLast ('~' :: c :: rest)).1 = '~' :: c :: (splitLast rest).1 := by
      rw [splitLast_cons_of_contains '~' (c :: rest) hcr]
      dsimp only
      rw [splitLast_cons_of_contains c rest hrc]
    unfold dirname
    dsimp only
    rw [hsl]
    rw [if_neg (by simp)]
    rw [if_neg (by simp)]
    rw [rstripSlash_cons_ne '~' _ (by decide)]
    rw [rstripSlash_cons_ne c _ hc]
    exact ⟨_, rfl⟩
  · left
    have hsl : (splitLast ('~' :: c :: rest)).1 = [] := by
      rw [splitLast_cons_of_not_contains '~' (c :: rest) hcr (by decide)]
    unfold dirname
    dsimp only
    rw [hsl]
    rw [if_pos rfl]

/-- For every link-path shape the planner produces, `expanduser` is the
identity on the dirname: the `Mkdir` recorded by `install_symlink_one` is
for the symlink's literal parent directory. -/
theorem expanduser_dirname_eq (home l : Path) (hl : linkOK l) :
    expanduser home (dirname l) = dirname l := by
  rcases hl with h | rfl | ⟨c, rest, rfl, hc⟩
  · rcases dirname_head l with h0 | h0
    · rw [h0]
      exact expanduser_eq_self_of_head home [] (by simp)
    · exact expanduser_eq_self_of_head home _ (by rw [h0]; exact h)
  · have h0 : dirname ['~'] = [] := by decide
    rw [h0]
    exact expanduser_eq_self_of_head home [] (by simp)
  · rcases dirname_tilde_shape c rest hc with h0 | ⟨w, h0⟩
    · rw [h0]
      exact expanduser_eq_self_of_head home [] (by simp)
    · rw [h0]
      exact expanduser_eq_self_of_user home c w hc

theorem rstripSlash_head (home : Path) :
    rstripSlash home = [] ∨ (rstripSlash home).head? = home.head? := by
  cases home with
  | nil => exact .inl rfl
  | cons c z =>
    rcases rstripSlash_shape c z with h | ⟨w, h⟩
    · exact .inl h
    · rw [h]
      exact .inr rfl

/-- When the home directory itself is not `~`-headed, every `expanduser`
output is a `linkOK` path. -/
theorem linkOK_expanduser (home raw : Path) (hh : home.head? ≠ some '~') :
    linkOK (expanduser home raw) := by
  unfold expanduser
  by_cases h1 : raw.head? = some '~'
  · rw [if_pos h1]
    by_cases h2 : raw.tail = [] ∨ raw.tail.head? = some '/'
    · rw [if_pos h2]
      dsimp only
      by_cases h3 : rstripSlash home ++ raw.tail = []
      · rw [if_pos h3]
        left
        simp
      · rw [if_neg h3]
        left
        cases hcq : rstripSlash home with
        | nil =>
          rw [hcq] at h3
          simp only [List.nil_append] at h3 ⊢
          rcases h2 with h2 | h2
          · exact absurd h2 h3
          · rw [h2]
            simp
        | cons a as =>
          have hsh : some a = home.head? := by
            rcases rstripSlash_head home with hn | hhead
            · rw [hn] at hcq
              cases hcq
            · rw [hcq] at hhead
              exact hhead
          simp only [List.cons_append, List.head?_cons]
          intro hq
          apply hh
          rw [← hsh]
          exact hq
    · rw [if_neg h2]
      right; right
      obtain ⟨tl, rfl⟩ : ∃ tl, raw = '~' :: tl := by
        cases raw with
        | nil => cases h1
        | cons a as =>
          simp only [List.head?_cons, Option.some.injEq] at h1
          exact ⟨as, by rw [h1]⟩
      cases tl with
      | nil => exact absurd (.inl rfl) h2
      | cons c r =>
        refine ⟨c, r, rfl, ?_⟩
        intro hcc
        exact h2 (.inr (by simp [hcc]))
  · rw [if_neg h1]
    exact .inl h1

theorem linkOK_take (l : Path) (k : Nat) (hl : linkOK l) : linkOK (l.take k) := by
  rcases hl with h | rfl | ⟨c, rest, rfl, hc⟩
  · left
    cases k with
    | zero => simp
    | succ n =>
      cases l with
      | nil => simp
      | cons a as =>
        simpa using (by simpa using h : a ≠ '~')
  · cases k with
    | zero => left; simp
    | succ n => right; left; simp
  · cases k with
    | zero => left; simp
    | succ n =>
      cases n with
      | zero => right; left; simp
      | succ m =>
        right; right
        exact ⟨c, rest.take m, by simp, hc⟩

theorem splitext_fst_take (p : Path) :
    (splitext p).1 = p ∨ ∃ k, (splitext p).1 = p.take k := by
  unfold splitext
  dsimp only
  cases lastIdx '.' (basename p) with
  | none => exact .inl rfl
  | some i =>
    dsimp only
    split
    · exact .inr ⟨_, rfl⟩
    · exact .inl rfl

/-- Every destination path computed by the `dest` loop is `linkOK`. -/
theorem linkOK_dest_path (home raw : Path) (se : Option Bool)
    (hh : home.head? ≠ some '~') : linkOK (dest_path home se raw) := by
  unfold dest_path
  dsimp only
  split
  · rcases splitext_fst_take (expanduser home raw) with h | ⟨k, h⟩
    · rw [h]
      exact linkOK_expanduser home raw hh
    · rw [h]
      exact linkOK_take _ k (linkOK_expanduser home raw hh)
  · exact linkOK_expanduser home raw hh

theorem covered_nil : covered [] := by
  intro i t l h
  simp at h

theorem covered_append (a b : List Action) (ha : covered a) (hb : covered b) :
    covered (a ++ b) := by
  intro i t l h
  by_cases hi : i < a.length
  · rw [List.getElem?_append, if_pos hi] at h
    obtain ⟨j, hj, hjv⟩ := ha i t l h
    refine ⟨j, hj, ?_⟩
    rw [List.getElem?_append, if_pos (by omega)]
    exact hjv
  · rw [List.getElem?_append, if_neg hi] at h
    obtain ⟨j, hj, hjv⟩ := hb _ t l h
    refine ⟨a.length + j, by omega, ?_⟩
    rw [List.getElem?_append_right (by omega)]
    simpa using hjv

theorem covered_of_all_mkdir (a : List Action)
    (h : ∀ x ∈ a, ∃ d, x = .mkdir d) : covered a := by
  intro i t l hi
  exfalso
  obtain ⟨hlt, he⟩ := List.getElem?_eq_some.mp hi
  obtain ⟨d, hd⟩ := h _ (he ▸ List.getElem_mem hlt)
  cases hd

theorem covered_pair (t l dd : Path) (hdd : dd = dirname l) :
    covered [.mkdir dd, .symlink t l] := by
  intro i t' l' hi
  match i with
  | 0 => simp at hi
  | 1 =>
    simp only [List.getElem?_cons_succ, List.getElem?_cons_zero,
      Option.some.injEq] at hi
    obtain ⟨rfl, rfl⟩ : t = t' ∧ l = l' := by
      cases hi
      exact ⟨rfl, rfl⟩
    exact ⟨0, by omega, by simp [hdd]⟩
  | n + 2 => simp at hi

/-- A successful `install_mkdir` produces only `Mkdir` actions (combined
statement for the mutual string/list recursion, bounded by `sizeOf`). -/
theorem install_mkdir_actions_all_mkdir :
    ∀ n : Nat,
      (∀ (home : Path) (v : MVal) (st : FS) (a : FsOut), sizeOf v ≤ n →
        install_mkdir home v st = .ok a → ∀ x ∈ a.actions, ∃ d, x = .mkdir d) ∧
      (∀ (home : Path) (l : List MVal) (st : FS) (a : FsOut), sizeOf l ≤ n →
        install_mkdir_list home l st = .ok a → ∀ x ∈ a.actions, ∃ d, x = .mkdir d) := by
  intro n
  induction n with
  | zero =>
    constructor
    · intro home v st a hle
      exfalso
      cases v <;> simp at hle
    · intro home l st a hle
      exfalso
      cases l <;> simp at hle
  | succ n ih =>
    constructor
    · intro home v st a hle h x hx
      cases v with
      | str s =>
        obtain ⟨hact, -, -, -⟩ := install_mkdir_str_ok home s st a h
        rw [hact] at hx
        simp only [List.mem_singleton] at hx
        exact ⟨_, hx⟩
      | list l =>
        unfold install_mkdir at h
        refine ih.2 home l st a ?_ h x hx
        simp only [MVal.list.sizeOf_spec] at hle
        omega
    · intro home l st a hle h x hx
      cases l with
      | nil =>
        unfold install_mkdir_list at h
        cases h
        simp at hx
      | cons i rest =>
        unfold install_mkdir_list at h
        cases h1 : install_mkdir home i st with
        | error e => rw [h1] at h; cases h
        | ok a1 =>
          rw [h1] at h
          dsimp only at h
          unfold seqOut at h
          cases h2 : install_mkdir_list home rest a1.fs with
          | error e => rw [h2] at h; cases h
          | ok b =>
            rw [h2] at h
            dsimp only at h
            cases h
            simp only [List.cons.sizeOf_spec] at hle
            have hs : 0 < sizeOf rest := by cases rest <;> simp
            rcases List.mem_append.mp hx with hx1 | hx2
            · exact ih.1 home i st a1 (by omega) h1 x hx1
            · exact ih.2 home rest a1.fs b (by omega) h2 x hx2

/-- A successful `install_symlink_one` on a `linkOK` link path produces a
covered action pair. -/
theorem covered_symlink_one (home t l : Path) (st : FS) (a : FsOut)
    (hl : linkOK l) (h : install_symlink_one home t l st = .ok a) :
    covered a.actions := by
  rw [symlink_one_ok_actions home t l st a h]
  exact covered_pair t l _ (expanduser_dirname_eq home l hl)

/-- A successful `install_symlink` (the `symlink` metadata key) produces a
covered action list. -/
theorem covered_install_symlink (home : Path) (hh : home.head? ≠ some '~') :
    ∀ (prs : List (Path × Path)) (st : FS) (a : FsOut),
      install_symlink home prs st = .ok a → covered a.actions := by
  intro prs
  induction prs with
  | nil =>
    intro st a h
    cases h
    exact covered_nil
  | cons pr rest ih =>
    intro st a h
    unfold install_symlink at h
    cases h1 : install_symlink_one home pr.2 (expanduser home pr.1) st with
    | error e => rw [h1] at h; cases h
    | ok a1 =>
      rw [h1] at h
      dsimp only at h
      unfold seqOut at h
      cases h2 : install_symlink home rest a1.fs with
      | error e => rw [h2] at h; cases h
      | ok b =>
        rw [h2] at h
        dsimp only at h
        cases h
        exact covered_append _ _
          (covered_symlink_one home pr.2 _ st a1 (linkOK_expanduser home pr.1 hh) h1)
          (ih a1.fs b h2)

/-- A successful `step_pre` (the `mkdir` and `symlink` keys) produces a
covered action list. -/
theorem covered_step_pre (home : Path) (hh : home.head? ≠ some '~')
    (mkv : Option MVal) (sy : Option (List (Path × Path))) (st : FS) (a : FsOut)
    (h : step_pre home mkv sy st = .ok a) : covered a.actions := by
  unfold step_pre at h
  cases h1 : (match mkv with
      | none => (.ok ⟨st, [], [], []⟩ : FsRes)
      | some v => install_mkdir home v st) with
  | error e => rw [h1] at h; cases h
  | ok o1 =>
    rw [h1] at h
    dsimp only at h
    have hc1 : covered o1.actions := by
      apply covered_of_all_mkdir
      cases mkv with
      | none => cases h1; simp
      | some v =>
        exact (install_mkdir_actions_all_mkdir (sizeOf v)).1 home v st o1
          (le_refl _) h1
    cases sy with
    | none =>
      cases h
      exact hc1
    | some prs =>
      dsimp only at h
      unfold seqOut at h
      cases h2 : install_symlink home prs o1.fs with
      | error e => rw [h2] at h; cases h
      | ok b =>
        rw [h2] at h
        dsimp only at h
        cases h
        exact covered_append _ _ hc1 (covered_install_symlink home hh prs o1.fs b h2)

/-- A successful `install_dest` (the `dest` loop) produces a covered action
list. -/
theorem covered_install_dest (home cwd filename : Path) (se : Option Bool)
    (hh : home.head? ≠ some '~') :
    ∀ (ds : List Path) (st : FS) (a : FsOut),
      install_dest home cwd filename se ds st = .ok a → covered a.actions := by
  intro ds
  induction ds with
  | nil =>
    intro st a h
    cases h
    exact covered_nil
  | cons d rest ih =>
    intro st a h
    unfold install_dest at h
    dsimp only at h
    cases h1 : install_symlink_one home
        (relpath cwd (abspath cwd filename) (dirname (dest_path home se d)))
        (dest_path home se d) st with
    | error e => rw [h1] at h; cases h
    | ok a1 =>
      rw [h1] at h
      dsimp only at h
      unfold seqOut at h
      cases h2 : install_dest home cwd filename se rest a1.fs with
      | error e => rw [h2] at h; cases h
      | ok b =>
        rw [h2] at h
        dsimp only at h
        cases h
        exact covered_append _ _
          (covered_symlink_one home _ _ st a1 (linkOK_dest_path home d se hh) h1)
          (ih a1.fs b h2)

/-- The `Mkdir`-before-`Symlink` invariant for the whole recursive planner
(`install_one` and its `dotsctl`/`dest` loops), combined statement bounded
by `sizeOf` for the mutual well-founded recursion. -/
theorem covered_install_one_aux (home cwd : Path) (hh : home.head? ≠ some '~') :
    ∀ n : Nat,
      (∀ (filename : Path) (m : Metadata) (st : FS) (r : FsOut × Metadata),
        sizeOf m ≤ n → install_one home cwd filename m st = .ok r →
        covered r.1.actions) ∧
      (∀ (bd : Path) (dc : Option (List (Path × Metadata))) (st : FS)
          (r : FsOut × Option (List (Path × Metadata))),
        sizeOf dc ≤ n → step_dots home cwd bd dc st = .ok r →
        covered r.1.actions) ∧
      (∀ (bd : Path) (l : List (Path × Metadata)) (st : FS)
          (r : FsOut × List (Path × Metadata)),
        sizeOf l ≤ n → install_dots home cwd bd l st = .ok r →
        covered r.1.actions) := by
  intro n
  induction n with
  | zero =>
    refine ⟨?_, ?_, ?_⟩
    · intro fn m st r hle
      exfalso
      cases m with
      | mk a b c d e f => simp only [Metadata.mk.sizeOf_spec] at hle; omega
    · intro bd dc st r hle
      exfalso
      cases dc with
      | none => simp at hle
      | some l => simp only [Option.some.sizeOf_spec] at hle; omega
    · intro bd l st r hle
      exfalso
      cases l with
      | nil => simp at hle
      | cons x rest => simp only [List.cons.sizeOf_spec] at hle; omega
  | succ n ih =>
    obtain ⟨ih1, ih2, ih3⟩ := ih
    refine ⟨?_, ?_, ?_⟩
    · intro fn m st r hle h
      cases m with
      | mk mkv sy dd de se dc =>
        simp only [Metadata.mk.sizeOf_spec] at hle
        rw [install_one] at h
        cases h1 : step_pre home mkv sy st with
        | error e => rw [h1] at h; cases h
        | ok o2 =>
          rw [h1] at h
          dsimp only at h
          cases h2 : step_dots home cwd (dirname fn) dc o2.fs with
          | error e => rw [h2] at h; cases h
          | ok p =>
            obtain ⟨o3', dc'⟩ := p
            rw [h2] at h
            dsimp only at h
            have hc2 : covered o2.actions := covered_step_pre home hh mkv sy st o2 h1
            have hc3 : covered o3'.actions :=
              ih2 (dirname fn) dc o2.fs (o3', dc') (by omega) h2
            cases hde : (step_destdir fn dd de).2 with
            | none =>
              rw [hde] at h
              dsimp only at h
              cases h
              dsimp only [FsOut.app]
              exact covered_append _ _ hc2 hc3
            | some sl =>
              rw [hde] at h
              dsimp only at h
              cases h4 : install_dest home cwd fn se sl.toListP (FsOut.app o2 o3').fs with
              | error e => rw [h4] at h; cases h
              | ok o4' =>
                rw [h4] at h
                dsimp only at h
                cases h
                have hc4 : covered o4'.actions :=
                  covered_install_dest home cwd fn se hh sl.toListP _ o4' h4
                dsimp only [FsOut.app]
                exact covered_append _ _ (covered_append _ _ hc2 hc3) hc4
    · intro bd dc st r hle h
      cases dc with
      | none =>
        simp only [step_dots.eq_def] at h
        cases h
        exact covered_nil
      | some l =>
        simp only [Option.some.sizeOf_spec] at hle
        simp only [step_dots.eq_def] at h
        cases h1 : install_dots home cwd bd (sortByKey l) st with
        | error e => rw [h1] at h; cases h
        | ok r0 =>
          rw [h1] at h
          dsimp only at h
          cases h
          exact ih3 bd (sortByKey l) st r0 (by rw [sizeOf_sortByKey]; omega) h1
    · intro bd l st r hle h
      cases l with
      | nil =>
        unfold install_dots at h
        cases h
        exact covered_nil
      | cons x rest =>
        obtain ⟨name, cm⟩ := x
        simp only [List.cons.sizeOf_spec, Prod.mk.sizeOf_spec] at hle
        unfold install_dots at h
        cases h1 : install_one home cwd (pjoin bd name) cm st with
        | error e => rw [h1] at h; cases h
        | ok p =>
          obtain ⟨o, cm'⟩ := p
          rw [h1] at h
          dsimp only at h
          cases h2 : install_dots home cwd bd rest o.fs with
          | error e => rw [h2] at h; cases h
          | ok p2 =>
            obtain ⟨o2, rest'⟩ := p2
            rw [h2] at h
            dsimp only at h
            cases h
            dsimp only [FsOut.app]
            exact covered_append _ _
              (ih1 (pjoin bd name) cm st (o, cm') (by omega) h1)
              (ih3 bd rest o.fs (o2, rest') (by omega) h2)

/-- C9: in every action list produced by planning (`install_one`, including
the depth-first `dotsctl` recursion at every level), each `Symlink` action
is preceded by a `Mkdir` action for that symlink's parent directory.
(The hypothesis that the home directory does not itself start with `~` rules
out degenerate `~`-expansions only.) -/
theorem C9_mkdir_precedes_symlink (home cwd filename : Path) (m : Metadata)
    (st : FS) (r : FsOut × Metadata)
    (hh : home.head? ≠ some '~')
    (h : install_one home cwd filename m st = .ok r) :
    ∀ (i : Nat) (t l : Path), r.1.actions[i]? = some (.symlink t l) →
      ∃ j, j < i ∧ r.1.actions[j]? = some (.mkdir (dirname l)) :=
  (covered_install_one_aux home cwd hh (sizeOf m)).1 filename m st r (le_refl _) h

/-- C9 witness: in a concrete plan, the symlink at index 1 is preceded by the
`Mkdir` of its parent at index 0. -/
theorem C9_witness :
    ("/h".toList.head? ≠ some '~') ∧
    install_one "/h".toList "/c".toList "x".toList
        (.mk none none (some (.str "/a".toList)) none none none) [] =
      .ok (⟨[("/a/x".toList, .symlink "../c/x".toList),
             ("/a".toList, .dir), ("/".toList, .dir)],
            [.mkdir "/a".toList, .symlink "../c/x".toList "/a/x".toList],
            ["MKDIR /a".toList, "SYMLINK /a/x".toList], []⟩,
           .mk none none (some (.list ["/a".toList]))
             (some (.list ["/a/x".toList])) none none) ∧
    (∃ j, j < 1 ∧
      ([Action.mkdir "/a".toList,
        Action.symlink "../c/x".toList "/a/x".toList])[j]? =
        some (.mkdir (dirname "/a/x".toList))) :=
  have hE : install_one "/h".toList "/c".toList "x".toList
      (.mk none none (some (.str "/a".toList)) none none none) [] =
      .ok (⟨[("/a/x".toList, .symlink "../c/x".toList),
             ("/a".toList, .dir), ("/".toList, .dir)],
            [.mkdir "/a".toList, .symlink "../c/x".toList "/a/x".toList],
            ["MKDIR /a".toList, "SYMLINK /a/x".toList], []⟩,
           .mk none none (some (.list ["/a".toList]))
             (some (.list ["/a/x".toList])) none none) := by
    simp only [install_one, step_dots.eq_def, install_dots]
    rfl
  ⟨by decide, hE,
   C9_mkdir_precedes_symlink "/h".toList "/c".toList "x".toList
     (.mk none none (some (.str "/a".toList)) none none none) [] _
     (by decide) hE 1 "../c/x".toList "/a/x".toList (by rfl)⟩
